import Mathlib

/-!
Verification of the core of the Scraper module (message-archive export).

The development shallowly embeds, over `List Char` file contents:

* the compact JSON encoding used by the writer (`json.dumps` with
  separators `","`/`":"`, modelled for records built from ASCII-printable
  strings and integers by `encode`);
* a standard JSON decoder (`loads`), used to state round-trip properties;
* the streaming array writer embedded in `Scraper.scrape_channel_messages`
  (`freshFile`, `resume_append`, `scrape_channel_messages`);
* the backward scanner `read_backwards` / `get_last_json_object` from
  `helpers/output_parse.py`, including its 1024-byte chunking;
* the pagination loop `fetch_channel_history` from
  `helpers/modified_internals.py`;
* the bounded-concurrency scheduler `gather_with_limit`.

Machine text is treated as a `List Char` of Unicode scalars; the embedding
identifies bytes with characters, which is faithful for the ASCII contents
the theorems quantify over.
-/

/-- JSON values, as produced by Python `json.loads` / consumed by
`json.dumps`.  Numbers are restricted to integers (message records carry
integer ids and the claims only involve integers). -/
inductive Json where
  | null
  | bool (b : Bool)
  | num (n : Int)
  | str (s : String)
  | arr (elems : List Json)
  | obj (membs : List (String × Json))

/-- The opening curly brace character. -/
def lbrace : Char := Char.ofNat 123

/-- The closing curly brace character. -/
def rbrace : Char := Char.ofNat 125

/-- `JSON_WHITESPACE` from `helpers/output_parse.py`. -/
def JSON_WHITESPACE : List Char := [' ', '\n', '\r', '\t']

/-- Whether a character is JSON whitespace (membership in `JSON_WHITESPACE`). -/
def isWs (c : Char) : Bool := c = ' ' || c = '\n' || c = '\r' || c = '\t'

/-- Decimal digits of `n`, most significant first; fuel-structural so that
concrete values reduce by `rfl`.  Any fuel of at least `n` is enough. -/
def natDigitsAux : Nat → Nat → List Char
  | 0, n => [Nat.digitChar n]
  | f + 1, n => if n < 10 then [Nat.digitChar n] else natDigitsAux f (n / 10) ++ [Nat.digitChar (n % 10)]

/-- Decimal digit string of a natural number. -/
def natDigits (n : Nat) : List Char := natDigitsAux n n

/-- Decimal representation of an integer, as emitted by `json.dumps`. -/
def intChars (n : Int) : List Char :=
  if n < 0 then '-' :: natDigits (-n).toNat else natDigits n.toNat

/-- JSON string escaping of one character: `json.dumps` escapes the quote
and the backslash; all other ASCII printable characters pass through. -/
def escChar (c : Char) : List Char :=
  if c = '"' then ['\\', '"']
  else if c = '\\' then ['\\', '\\']
  else [c]

/-- JSON string escaping of a character sequence. -/
def escList : List Char → List Char
  | [] => []
  | c :: cs => escChar c ++ escList cs

/-- A JSON string literal: quote, escaped content, quote. -/
def strLit (s : String) : List Char :=
  '"' :: escList s.data ++ ['"']

mutual
/-- Compact JSON encoding of a value: `json.dumps(v, separators=(",", ":"))`
for values whose strings are ASCII printable (`wfB`). -/
def encode : Json → List Char
  | .null => 'n' :: ['u', 'l', 'l']
  | .bool true => 't' :: ['r', 'u', 'e']
  | .bool false => 'f' :: ['a', 'l', 's', 'e']
  | .num n => intChars n
  | .str s => strLit s
  | .arr xs => '[' :: encodeItems xs ++ [']']
  | .obj kvs => lbrace :: encodeMembers kvs ++ [rbrace]

/-- Comma-joined compact encodings of array elements. -/
def encodeItems : List Json → List Char
  | [] => []
  | [x] => encode x
  | x :: y :: rest => encode x ++ ',' :: encodeItems (y :: rest)

/-- Comma-joined compact `"key":value` encodings of object members. -/
def encodeMembers : List (String × Json) → List Char
  | [] => []
  | [(k, v)] => strLit k ++ ':' :: encode v
  | (k, v) :: m :: rest => strLit k ++ ':' :: encode v ++ ',' :: encodeMembers (m :: rest)
end

/-- ASCII-printable string: no control characters (which `json.dumps` would
escape as `\uXXXX`/`\n` forms not modelled here) and no non-ASCII
characters (which `json.dumps` escapes under its default `ensure_ascii`). -/
def asciiSafe (s : String) : Bool := s.data.all (fun c => 0x20 ≤ c.toNat && c.toNat < 0x7f)

mutual
/-- Well-formed value: every string (and key) in it is ASCII printable, so
that `encode` agrees with Python `json.dumps`. -/
def wfB : Json → Bool
  | .null => true
  | .bool _ => true
  | .num _ => true
  | .str s => asciiSafe s
  | .arr xs => wfItems xs
  | .obj kvs => wfMembers kvs

/-- All elements well formed. -/
def wfItems : List Json → Bool
  | [] => true
  | x :: rest => wfB x && wfItems rest

/-- All keys ASCII printable and all values well formed. -/
def wfMembers : List (String × Json) → Bool
  | [] => true
  | (k, v) :: rest => asciiSafe k && wfB v && wfMembers rest
end

/-- Drop leading JSON whitespace (a standard decoder tolerates it). -/
def skipWs (cs : List Char) : List Char := cs.dropWhile isWs

/-- Numeric value of a decimal digit character. -/
def digitVal (c : Char) : Nat := c.toNat - 48

/-- Consume a maximal run of decimal digits, accumulating their value. -/
def readDigits : List Char → Nat → Nat × List Char
  | [], acc => (acc, [])
  | c :: r, acc => if c.isDigit then readDigits r (acc * 10 + digitVal c) else (acc, c :: r)

/-- Decode a JSON escape character (the part after the backslash). -/
def unescChar (c : Char) : Option Char :=
  if c = '"' then some '"'
  else if c = '\\' then some '\\'
  else if c = '/' then some '/'
  else if c = 'n' then some '\n'
  else if c = 't' then some '\t'
  else if c = 'r' then some '\x0d'
  else if c = 'b' then some (Char.ofNat 8)
  else if c = 'f' then some (Char.ofNat 12)
  else none

/-- Decode a string literal body (after the opening quote), returning the
decoded characters and the input after the closing quote. -/
def parseStrRest : List Char → Option (List Char × List Char)
  | [] => none
  | c :: r =>
    if c = '"' then some ([], r)
    else if c = '\\' then
      match r with
      | [] => none
      | e :: r2 =>
        match unescChar e with
        | none => none
        | some u => (parseStrRest r2).map (fun p => (u :: p.1, p.2))
    else (parseStrRest r).map (fun p => (c :: p.1, p.2))

/-- Decode an integer literal (optional minus sign, then digits). -/
def parseIntNum : List Char → Option (Int × List Char)
  | [] => none
  | c :: r =>
    if c = '-' then
      match r with
      | [] => none
      | c2 :: _ =>
        if c2.isDigit then
          let p := readDigits r 0
          some (-(p.1 : Int), p.2)
        else none
    else if c.isDigit then
      let p := readDigits (c :: r) 0
      some ((p.1 : Int), p.2)
    else none

/-- Expect a literal character sequence at the front of the input. -/
def stripLit : List Char → List Char → Option (List Char)
  | [], cs => some cs
  | _ :: _, [] => none
  | p :: ps, c :: cs => if c = p then stripLit ps cs else none

mutual
/-- Fuel-indexed JSON value decoder: decodes one value from the front of the
input and returns the remaining input. -/
def parseV : Nat → List Char → Option (Json × List Char)
  | 0, _ => none
  | f + 1, cs =>
    match skipWs cs with
    | [] => none
    | c :: r =>
      if c = 'n' then (stripLit ['u', 'l', 'l'] r).map (fun r2 => (.null, r2))
      else if c = 't' then (stripLit ['r', 'u', 'e'] r).map (fun r2 => (.bool true, r2))
      else if c = 'f' then (stripLit ['a', 'l', 's', 'e'] r).map (fun r2 => (.bool false, r2))
      else if c = '"' then (parseStrRest r).map (fun p => (.str (String.mk p.1), p.2))
      else if c = '[' then
        match skipWs r with
        | [] => none
        | c2 :: r2 => if c2 = ']' then some (.arr [], r2) else parseItemsF f (c2 :: r2) []
      else if c = lbrace then
        match skipWs r with
        | [] => none
        | c2 :: r2 => if c2 = rbrace then some (.obj [], r2) else parseMembersF f (c2 :: r2) []
      else (parseIntNum (c :: r)).map (fun p => (.num p.1, p.2))

/-- Decode the remaining elements of a non-empty array, up to and including
the closing bracket. -/
def parseItemsF : Nat → List Char → List Json → Option (Json × List Char)
  | 0, _, _ => none
  | f + 1, cs, acc =>
    match parseV f cs with
    | none => none
    | some (v, r) =>
      match skipWs r with
      | [] => none
      | c :: r2 =>
        if c = ',' then parseItemsF f r2 (acc ++ [v])
        else if c = ']' then some (.arr (acc ++ [v]), r2)
        else none

/-- Decode the remaining members of a non-empty object, up to and including
the closing brace. -/
def parseMembersF : Nat → List Char → List (String × Json) → Option (Json × List Char)
  | 0, _, _ => none
  | f + 1, cs, acc =>
    match skipWs cs with
    | [] => none
    | c0 :: r0 =>
      if c0 = '"' then
        match parseStrRest r0 with
        | none => none
        | some (kcs, r2) =>
          match skipWs r2 with
          | [] => none
          | c3 :: r3 =>
            if c3 = ':' then
              match parseV f r3 with
              | none => none
              | some (v, r4) =>
                match skipWs r4 with
                | [] => none
                | c5 :: r5 =>
                  if c5 = ',' then parseMembersF f r5 (acc ++ [(String.mk kcs, v)])
                  else if c5 = rbrace then some (.obj (acc ++ [(String.mk kcs, v)]), r5)
                  else none
            else none
      else none
end

/-- Input that does not begin with a decimal digit (so that a greedy
number cannot run into it). -/
def okRest : List Char → Bool
  | [] => true
  | c :: _ => !c.isDigit

/-- `json.loads`: decode a complete JSON document, requiring that nothing but
whitespace follows the value. -/
def loads (cs : List Char) : Option Json :=
  match parseV (cs.length + 1) cs with
  | some (v, rest) => if (skipWs rest).isEmpty then some v else none
  | none => none

mutual
/-- Fuel requirement of `parseV` on the encoding of a value. -/
def jsz : Json → Nat
  | .null => 1
  | .bool _ => 1
  | .num _ => 1
  | .str _ => 1
  | .arr xs => 1 + jszItems xs
  | .obj kvs => 1 + jszMembers kvs

/-- Fuel requirement of `parseItemsF` on an encoded element chain. -/
def jszItems : List Json → Nat
  | [] => 0
  | x :: rest => 1 + jsz x + jszItems rest

/-- Fuel requirement of `parseMembersF` on an encoded member chain. -/
def jszMembers : List (String × Json) → Nat
  | [] => 0
  | (_, v) :: rest => 1 + jsz v + jszMembers rest
end

/-- Separator written before a record (`scrape_channel_messages` line 196):
empty for the first record when no resume id was found, comma otherwise. -/
def recSep (resumed first : Bool) : List Char :=
  if first && !resumed then [] else [',']

/-- The record bytes written by the message loop of
`scrape_channel_messages`: separator then compact encoding, per record. -/
def sessionBody (resumed : Bool) : Bool → List Json → List Char
  | _, [] => []
  | first, m :: ms => recSep resumed first ++ encode m ++ sessionBody resumed false ms

/-- File content produced by a fresh write session: `[`, the records, `]`. -/
def freshFile (msgs : List Json) : List Char :=
  '[' :: sessionBody false true msgs ++ [']']

/-- Bytes appended by a resumed write session (every record is preceded by
a comma, then the closing bracket is re-emitted). -/
def resume_append (msgs : List Json) : List Char :=
  sessionBody true true msgs ++ [']']

/-- The chunk sequence produced by `read_backwards(file_obj, 1024)`: the
last `c` bytes of the file, then the previous `c` bytes, ..., `n / c`
chunks in all, then the first `n mod c` bytes.  Chunk contents are in file
order (only the chunk order is reversed). -/
def read_backwards (s : List Char) (c : Nat) : List (List Char) :=
  ((List.range (s.length / c)).map (fun i => (s.drop (s.length - (i + 1) * c)).take c))
    ++ [s.take (s.length % c)]

/-- `chunk.find("]")` as a splitter: `none` when the chunk has no `]`,
otherwise the characters before the first `]` and the suffix from it. -/
def splitAtBracket : List Char → Option (List Char × List Char)
  | [] => none
  | c :: r =>
    if c = ']' then some ([], c :: r)
    else (splitAtBracket r).map (fun p => (c :: p.1, p.2))

/-- Failures of `get_last_json_object`: `trailing` is the `ValueError`
"Trailing characters found after list.", `noList` is the `ValueError`
"No list was found in the file.", `decodeFail` is a `json.loads` failure
on the extracted text. -/
inductive JErr where
  | trailing
  | noList
  | decodeFail
deriving DecidableEq

/-- The first loop of `get_last_json_object`: walk the reversed chunks
until one contains `]`.  A chunk with no `]` is skipped without any check
(`continue`); in the chunk containing the first `]`, every character
before it must be JSON whitespace.  Returns the chunk suffix starting at
the `]` and the unconsumed chunks. -/
def findListEnd : List (List Char) → Except JErr (List Char × List (List Char))
  | [] => .error .noList
  | chunk :: rest =>
    match splitAtBracket chunk with
    | none => findListEnd rest
    | some (pre, fromBracket) =>
      if pre.all isWs then .ok (fromBracket, rest) else .error .trailing

/-- State of the backward bracket/string scanner of
`get_last_json_object`: `square_nests`, `curly_nests`, `in_string`,
`found_quote`. -/
structure ScanSt where
  square : Int
  curly : Int
  inStr : Bool
  fq : Bool
deriving DecidableEq

/-- Scanner start state. -/
def initScan : ScanSt := ⟨0, 0, false, false⟩

/-- One character of the second loop of `get_last_json_object`: whitespace
is skipped; otherwise the string-mode logic runs (one-character lookback
via `found_quote`), then, outside string mode, brackets adjust the nesting
counters; the loop exits when `curly_nests == 0` after the character. -/
def scanStep (s : ScanSt) (c : Char) : ScanSt × Bool :=
  if isWs c then (s, false)
  else
    let s1 :=
      if s.inStr = false then
        if c = '"' then { s with inStr := true } else s
      else
        if c = '"' then { s with fq := true }
        else if s.fq then
          if c = '\\' then { s with fq := false }
          else { s with fq := false, inStr := false }
        else s
    if s1.inStr then (s1, false)
    else
      let s2 :=
        if c = '"' then { s1 with inStr := true }
        else if c = '[' then { s1 with square := s1.square + 1 }
        else if c = ']' then { s1 with square := s1.square - 1 }
        else if c = lbrace then { s1 with curly := s1.curly + 1 }
        else if c = rbrace then { s1 with curly := s1.curly - 1 }
        else s1
      (s2, s2.curly == 0)

/-- Characters accumulated (`extracted`) by the second loop: every
character is appended before the state update, and the loop stops right
after the character whose step signals exit. -/
def extractBackward (s : ScanSt) : List Char → List Char
  | [] => []
  | c :: rest =>
    let p := scanStep s c
    c :: (if p.2 then [] else extractBackward p.1 rest)

/-- Final scanner state after a character sequence (ignoring exits). -/
def scanAll (s : ScanSt) (cs : List Char) : ScanSt :=
  cs.foldl (fun st c => (scanStep st c).1) s

/-- Whether no character of the sequence triggers the exit condition. -/
def noExit (s : ScanSt) : List Char → Bool
  | [] => true
  | c :: rest =>
    let p := scanStep s c
    if p.2 then false else noExit p.1 rest

/-- `get_last_json_object` over a file content.  The chunked backward read
uses chunk size 1024 as in the source.  The second loop is modelled on the
flattened remaining character stream: `should_exit` makes the code stop at
exactly the character whose step signals exit, so chunk boundaries do not
affect `extracted`. -/
def get_last_json_object (content : List Char) : Except JErr Json :=
  let chunks := (read_backwards content 1024).map List.reverse
  match findListEnd chunks with
  | .error e => .error e
  | .ok (chars, rest) =>
    let stream := chars.drop 1 ++ rest.flatten
    let extracted := extractBackward initScan stream
    match loads extracted.reverse with
    | some v => .ok v
    | none => .error .decodeFail

/-- Python truthiness of a JSON value. -/
def truthy : Json → Bool
  | .null => false
  | .bool b => b
  | .num n => n != 0
  | .str s => s.data != []
  | .arr xs => !xs.isEmpty
  | .obj kvs => !kvs.isEmpty

/-- Python `int(x)` for the JSON shapes that can occur as an `id` value:
integers pass through, booleans become 0/1, digit strings are converted;
`none` stands for a raised `TypeError`/`ValueError`. -/
def pyInt : Json → Option Int
  | .num n => some n
  | .bool b => some (if b then 1 else 0)
  | .str s =>
    if s.data ≠ [] ∧ s.data.all Char.isDigit then some ((readDigits s.data 0).1 : Int) else none
  | _ => none

/-- How the message-fetch/write loop of one `scrape_channel_messages`
session ends: normal completion after writing `msgs`; a
`discord.HTTPException` from the page fetch after `written` records; or an
OS-level write failure after `written` whole records plus a torn fragment
`extra` of the failing write. -/
inductive FetchEv where
  | ok (msgs : List Json)
  | httpErr (written : List Json)
  | writeErr (written : List Json) (extra : List Char)

/-- Result of a `scrape_channel_messages` call: the final state of the
message file (`none` = deleted) and whether an exception propagated out of
the call. -/
structure ScrapeOut where
  file : Option (List Char)
  raised : Bool
deriving DecidableEq

/-- `scrape_channel_messages` (lines 144-208) on the message file alone
(attachment downloads are independent writes to other paths and are not
modelled).  Resume detection: if the file exists, `get_last_json_object`
is tried, any failure being caught and answered with fresh mode; on
success, `int(obj.get("id"))` runs outside the `try` (a non-dict value or
a non-convertible truthy id raises out of the call with the file
untouched), a falsy id means fresh mode.  With a resume id the file's
final byte is truncated and the session opens in append mode; otherwise
the file is opened with mode "w" and `[` is written.  The per-record
separator is "" only for the first record when `last_msg_id` is falsy
(line 196).  On `discord.HTTPException` the file is unlinked; on any other
write failure the exception propagates and the file keeps the bytes
written so far. -/
def scrape_channel_messages (fileExists : Bool) (content : List Char) (ev : FetchEv) : ScrapeOut :=
  let idStep : Except Unit (Option Int) :=
    if fileExists then
      match get_last_json_object content with
      | .error _ => .ok none
      | .ok (.obj kvs) =>
        match kvs.lookup "id" with
        | some v =>
          if truthy v then
            match pyInt v with
            | some n => .ok (some n)
            | none => .error ()
          else .ok none
        | none => .ok none
      | .ok _ => .error ()
    else .ok none
  match idStep with
  | .error _ => ⟨some content, true⟩
  | .ok resumeId =>
    let base := match resumeId with
      | some _ => content.dropLast
      | none => ['[']
    let sepResumed := match resumeId with
      | some n => decide (n ≠ 0)
      | none => false
    match ev with
    | .ok msgs => ⟨some (base ++ sessionBody sepResumed true msgs ++ [']']), false⟩
    | .httpErr _ => ⟨none, false⟩
    | .writeErr written extra => ⟨some (base ++ sessionBody sepResumed true written ++ extra), true⟩

/-- The inner while loop of `gather_with_limit` (lines 49-50): move tasks
from `pending` to the end of `running` while `running` has fewer than
`limit` entries. -/
def refillRunning {ε α : Type} (limit : Nat) :
    List (Except ε α) → List (Except ε α) → List (Except ε α) × List (Except ε α)
  | [], running => ([], running)
  | t :: ps, running =>
    if running.length < limit then refillRunning limit ps (running ++ [t])
    else (t :: ps, running)

/-- The scheduler loop of `gather_with_limit`, under the deterministic
schedule in which `asyncio.wait(..., FIRST_COMPLETED)` reports exactly the
head of the running list as completed.  Per completed task (lines 52-59):
its result is fetched; an exception is appended to `results` when
`return_exceptions` is set and re-raised otherwise; a successful value is
not recorded anywhere.  Fuel bounds the iterations; one task finishes per
iteration, so `tasks.length + 1` is always enough. -/
def gatherLoop {ε α : Type} (limit : Nat) (retExc : Bool) :
    Nat → List (Except ε α) → List (Except ε α) → List ε → Except ε (List ε)
  | 0, _, _, results => .ok results
  | f + 1, pending, running, results =>
    if pending.isEmpty && running.isEmpty then .ok results
    else
      match refillRunning limit pending running with
      | (_, []) => .ok results
      | (p2, t :: rs) =>
        match t with
        | .ok _ => gatherLoop limit retExc f p2 rs results
        | .error e =>
          if retExc then gatherLoop limit retExc f p2 rs (results ++ [e])
          else .error e

/-- `gather_with_limit`: each coroutine is represented by its eventual
outcome (`Except.ok` value or `Except.error` exception). -/
def gather_with_limit {ε α : Type} (tasks : List (Except ε α)) (limit : Nat)
    (return_exceptions : Bool) : Except ε (List ε) :=
  gatherLoop limit return_exceptions (tasks.length + 1) tasks [] []

/-- `fetch_channel_history` driven by a scripted page source: the k-th
request returns the k-th page of the script, clipped to the requested
`retrieve_count` (the endpoint honours the requested limit); requests past
the end of the script return an empty page.  Returns the yielded records
and the number of page requests made.  `idOf` stands for
`int(data[0]["id"])`; the cursor it produces only feeds the next request
and does not affect a scripted source. -/
def fetch_channel_history {μ : Type} (idOf : μ → Int) :
    Option Int → Option Int → List (List μ) → List μ × Nat
  | message_limit, after_id, pages =>
    let retrieve : Int := match message_limit with | none => 100 | some l => min l 100
    if retrieve < 1 then ([], 0)
    else
      match pages with
      | [] => ([], 1)
      | p :: rest =>
        let data := p.take retrieve.toNat
        let limit2 := match message_limit with | none => none | some l => some (l - data.length)
        let after2 := match data.head? with | some m => some (idOf m) | none => after_id
        if data.length < 100 then (data.reverse, 1)
        else
          let next := fetch_channel_history idOf limit2 after2 rest
          (data.reverse ++ next.1, 1 + next.2)

/-! ### Basic facts about characters, digits and whitespace -/

theorem string_mk_data (s : String) : String.mk s.data = s := rfl

theorem isWs_false_iff (c : Char) :
    isWs c = false ↔ (c ≠ ' ' ∧ c ≠ '\n' ∧ c ≠ '\x0d' ∧ c ≠ '\t') := by
  simp [isWs]
  tauto

theorem isDigit_not_ws {c : Char} (h : c.isDigit = true) : isWs c = false := by
  rw [isWs_false_iff]
  refine ⟨?_, ?_, ?_, ?_⟩ <;> rintro rfl <;> simp at h

theorem digitChar_isDigit {d : Nat} (h : d < 10) : (Nat.digitChar d).isDigit = true := by
  interval_cases d <;> decide

theorem digitVal_digitChar {d : Nat} (h : d < 10) : digitVal (Nat.digitChar d) = d := by
  interval_cases d <;> decide

theorem natDigitsAux_ne_nil (f n : Nat) : natDigitsAux f n ≠ [] := by
  cases f with
  | zero => simp [natDigitsAux]
  | succ f =>
    rw [natDigitsAux]
    split
    · simp
    · simp

theorem natDigitsAux_digits : ∀ f n, n ≤ f ∨ n < 10 → ∀ c ∈ natDigitsAux f n, c.isDigit = true := by
  intro f
  induction f with
  | zero =>
    intro n h c hc
    rw [natDigitsAux] at hc
    have : n < 10 := by omega
    simp at hc
    subst hc
    exact digitChar_isDigit this
  | succ f ih =>
    intro n h c hc
    rw [natDigitsAux] at hc
    by_cases hn : n < 10
    · simp [hn] at hc
      subst hc
      exact digitChar_isDigit hn
    · simp [hn] at hc
      rcases hc with hc | hc
      · exact ih (n / 10) (by omega) c hc
      · subst hc
        exact digitChar_isDigit (by omega)

/-! ### Number round trip -/

theorem readDigits_natDigitsAux :
    ∀ f n, n ≤ f ∨ n < 10 → ∀ acc rest,
      readDigits (natDigitsAux f n ++ rest) acc
        = readDigits rest (acc * 10 ^ (natDigitsAux f n).length + n) := by
  intro f
  induction f with
  | zero =>
    intro n h acc rest
    have hn : n < 10 := by omega
    rw [natDigitsAux]
    simp [readDigits, digitChar_isDigit hn, digitVal_digitChar hn]
  | succ f ih =>
    intro n h acc rest
    by_cases hn : n < 10
    · rw [natDigitsAux]
      simp [hn, readDigits, digitChar_isDigit hn, digitVal_digitChar hn]
    · rw [natDigitsAux]
      simp only [hn, if_false, List.append_assoc, List.singleton_append]
      rw [ih (n / 10) (by omega)]
      have h10 : n % 10 < 10 := by omega
      simp only [readDigits, digitChar_isDigit h10, if_true, digitVal_digitChar h10]
      have hlen : (natDigitsAux f (n / 10) ++ [Nat.digitChar (n % 10)]).length
          = (natDigitsAux f (n / 10)).length + 1 := by simp
      rw [hlen, pow_succ]
      ring_nf
      congr 1
      omega

theorem readDigits_stop (cs : List Char) (acc : Nat) (h : okRest cs = true) :
    readDigits cs acc = (acc, cs) := by
  cases cs with
  | nil => simp [readDigits]
  | cons c r =>
    simp [okRest] at h
    simp [readDigits, h]

theorem readDigits_natDigits (n : Nat) (rest : List Char) (h : okRest rest = true) :
    readDigits (natDigits n ++ rest) 0 = (n, rest) := by
  rw [natDigits, readDigits_natDigitsAux n n (Or.inl le_rfl), readDigits_stop rest _ h]
  simp

theorem natDigits_head_digit (n : Nat) :
    ∃ c r, natDigits n = c :: r ∧ c.isDigit = true := by
  have hne := natDigitsAux_ne_nil n n
  have hall := natDigitsAux_digits n n (Or.inl le_rfl)
  rw [natDigits]
  cases hcs : natDigitsAux n n with
  | nil => exact absurd hcs hne
  | cons c r =>
    refine ⟨c, r, rfl, ?_⟩
    exact hall c (by rw [hcs]; exact List.mem_cons_self c r)

theorem parseIntNum_encode (n : Int) (rest : List Char) (h : okRest rest = true) :
    parseIntNum (intChars n ++ rest) = some (n, rest) := by
  by_cases hneg : n < 0
  · obtain ⟨c, r, hcr, hdig⟩ := natDigits_head_digit (-n).toNat
    rw [intChars, if_pos hneg]
    simp only [List.cons_append, parseIntNum]
    have hminus : ¬ ('-' : Char).isDigit = true := by decide
    rw [hcr]
    simp only [List.cons_append]
    simp only [if_pos rfl, hdig, if_true]
    rw [← List.cons_append, ← hcr, readDigits_natDigits _ rest h]
    simp only
    have h1 : (((-n).toNat : ℤ)) = -n := Int.toNat_of_nonneg (by omega)
    rw [h1, neg_neg]
  · obtain ⟨c, r, hcr, hdig⟩ := natDigits_head_digit n.toNat
    rw [intChars, if_neg hneg, hcr]
    simp only [List.cons_append, parseIntNum]
    have hcm : c ≠ '-' := by
      rintro rfl
      simp at hdig
    rw [if_neg hcm, if_pos hdig, ← List.cons_append, ← hcr, readDigits_natDigits _ rest h]
    simp only
    rw [Int.toNat_of_nonneg (by omega : (0:ℤ) ≤ n)]

/-! ### String literal round trip -/

theorem parseStrRest_escList (d : List Char) (tail : List Char) :
    parseStrRest (escList d ++ '"' :: tail) = some (d, tail) := by
  induction d with
  | nil =>
    simp only [escList, List.nil_append]
    rw [parseStrRest.eq_def]
    simp
  | cons c ds ih =>
    by_cases hq : c = '"'
    · subst hq
      simp only [escList, escChar, if_pos rfl, List.cons_append, List.append_assoc]
      rw [parseStrRest.eq_def]
      simp [unescChar, ih]
    · by_cases hb : c = '\\'
      · subst hb
        simp only [escList, escChar, if_neg (by decide : ¬ ('\\' : Char) = '"'), if_pos rfl,
          List.cons_append, List.append_assoc]
        rw [parseStrRest.eq_def]
        simp [unescChar, ih]
      · simp only [escList, escChar, if_neg hq, if_neg hb, List.cons_append, List.nil_append]
        rw [parseStrRest.eq_def]
        simp [hq, hb, ih]

/-! ### Heads of encodings -/

theorem digit_not_special {c : Char} (h : c.isDigit = true) :
    c ≠ ']' ∧ c ≠ rbrace ∧ c ≠ ',' ∧ c ≠ ':' ∧ c ≠ '-' ∧ c ≠ '"' ∧ c ≠ '[' ∧ c ≠ lbrace
      ∧ c ≠ 'n' ∧ c ≠ 't' ∧ c ≠ 'f' := by
  refine ⟨?_, ?_, ?_, ?_, ?_, ?_, ?_, ?_, ?_, ?_, ?_⟩ <;> rintro rfl <;> simp [rbrace, lbrace] at h

theorem encode_head (v : Json) :
    ∃ c r, encode v = c :: r ∧ isWs c = false ∧ c ≠ ']' ∧ c ≠ rbrace ∧ c ≠ ',' ∧ c ≠ ':' := by
  cases v with
  | null => exact ⟨'n', _, rfl, by decide, by decide, by decide, by decide, by decide⟩
  | bool b =>
    cases b with
    | true => exact ⟨'t', _, rfl, by decide, by decide, by decide, by decide, by decide⟩
    | false => exact ⟨'f', _, rfl, by decide, by decide, by decide, by decide, by decide⟩
  | num n =>
    by_cases hneg : n < 0
    · refine ⟨'-', natDigits (-n).toNat, ?_, by decide, by decide, by decide, by decide, by decide⟩
      simp [encode, intChars, hneg]
    · obtain ⟨c, r, hcr, hdig⟩ := natDigits_head_digit n.toNat
      have hfacts := digit_not_special hdig
      refine ⟨c, r, ?_, isDigit_not_ws hdig, hfacts.1, hfacts.2.1, hfacts.2.2.1, hfacts.2.2.2.1⟩
      simp [encode, intChars, hneg, hcr]
  | str s => exact ⟨'"', _, rfl, by decide, by decide, by decide, by decide, by decide⟩
  | arr xs => exact ⟨'[', _, rfl, by decide, by decide, by decide, by decide, by decide⟩
  | obj kvs => exact ⟨lbrace, _, rfl, by decide, by decide, by decide, by decide, by decide⟩

theorem encode_ne_nil (v : Json) : encode v ≠ [] := by
  obtain ⟨c, r, hcr, -⟩ := encode_head v
  simp [hcr]

theorem skipWs_cons_not_ws {c : Char} (h : isWs c = false) (r : List Char) :
    skipWs (c :: r) = c :: r := by
  simp [skipWs, List.dropWhile_cons, h]

theorem skipWs_encode_append (v : Json) (rest : List Char) :
    skipWs (encode v ++ rest) = encode v ++ rest := by
  obtain ⟨c, r, hcr, hws, -⟩ := encode_head v
  rw [hcr, List.cons_append, skipWs_cons_not_ws hws]

/-! ### Fuel bounds for the decoder -/

mutual
theorem jsz_le_encode (v : Json) : jsz v ≤ (encode v).length := by
  cases v with
  | null => simp [jsz, encode]
  | bool b => cases b <;> simp [jsz, encode]
  | num n =>
    have hp : 0 < (encode (Json.num n)).length := List.length_pos.mpr (encode_ne_nil _)
    simp only [jsz]
    omega
  | str s => simp [jsz, encode, strLit]
  | arr xs =>
    have := jszItems_le_encode xs
    simp only [jsz, encode, List.length_cons, List.length_append, List.length_singleton]
    omega
  | obj kvs =>
    have := jszMembers_le_encode kvs
    simp only [jsz, encode, List.length_cons, List.length_append, List.length_singleton]
    omega

theorem jszItems_le_encode (xs : List Json) : jszItems xs ≤ (encodeItems xs).length + 1 := by
  cases xs with
  | nil => simp [jszItems, encodeItems]
  | cons x rest =>
    cases rest with
    | nil =>
      have := jsz_le_encode x
      simp only [jszItems, encodeItems]
      omega
    | cons y r2 =>
      have h1 := jsz_le_encode x
      have h2 := jszItems_le_encode (y :: r2)
      simp only [jszItems] at h2 ⊢
      simp only [encodeItems, List.length_append, List.length_cons]
      omega

theorem jszMembers_le_encode (kvs : List (String × Json)) :
    jszMembers kvs ≤ (encodeMembers kvs).length + 1 := by
  cases kvs with
  | nil => simp [jszMembers, encodeMembers]
  | cons kv rest =>
    obtain ⟨k, v⟩ := kv
    cases rest with
    | nil =>
      have := jsz_le_encode v
      simp only [jszMembers, encodeMembers, List.length_append, List.length_cons]
      omega
    | cons m r2 =>
      have h1 := jsz_le_encode v
      have h2 := jszMembers_le_encode (m :: r2)
      simp only [jszMembers] at h2 ⊢
      simp only [encodeMembers, List.length_append, List.length_cons]
      omega
end

theorem parseV_null (f : Nat) (rest : List Char) :
    parseV (f + 1) (encode .null ++ rest) = some (.null, rest) := by
  show parseV (f + 1) ('n' :: 'u' :: 'l' :: 'l' :: rest) = _
  rw [parseV.eq_def]
  simp [skipWs, isWs, stripLit]

theorem parseV_bool (f : Nat) (b : Bool) (rest : List Char) :
    parseV (f + 1) (encode (.bool b) ++ rest) = some (.bool b, rest) := by
  cases b
  · show parseV (f + 1) ('f' :: 'a' :: 'l' :: 's' :: 'e' :: rest) = _
    rw [parseV.eq_def]
    simp [skipWs, isWs, stripLit]
  · show parseV (f + 1) ('t' :: 'r' :: 'u' :: 'e' :: rest) = _
    rw [parseV.eq_def]
    simp [skipWs, isWs, stripLit]

theorem parseV_str (f : Nat) (s : String) (rest : List Char) :
    parseV (f + 1) (encode (.str s) ++ rest) = some (.str s, rest) := by
  show parseV (f + 1) (('"' :: escList s.data ++ ['"']) ++ rest) = _
  rw [parseV.eq_def]
  simp only [List.cons_append, List.append_assoc, List.singleton_append]
  rw [skipWs_cons_not_ws (by decide)]
  simp [parseStrRest_escList, string_mk_data]

theorem encode_num_eq (n : Int) : encode (.num n) = intChars n := rfl

theorem parseV_num (f : Nat) (n : Int) (rest : List Char) (h : okRest rest = true) :
    parseV (f + 1) (encode (.num n) ++ rest) = some (.num n, rest) := by
  obtain ⟨c, r, hcr, hws, -⟩ := encode_head (.num n)
  have hcd : c.isDigit = true ∨ c = '-' := by
    rw [encode_num_eq, intChars] at hcr
    by_cases hneg : n < 0
    · rw [if_pos hneg] at hcr
      right
      exact ((List.cons.injEq _ _ _ _).mp hcr).1.symm
    · rw [if_neg hneg] at hcr
      obtain ⟨c2, r2, hc2, hdig⟩ := natDigits_head_digit n.toNat
      rw [hc2] at hcr
      left
      cases hcr
      exact hdig
  have hgs : ¬ c = 'n' ∧ ¬ c = 't' ∧ ¬ c = 'f' ∧ ¬ c = '"' ∧ ¬ c = '[' ∧ ¬ c = lbrace := by
    rcases hcd with hd | rfl
    · have hf := digit_not_special hd
      exact ⟨hf.2.2.2.2.2.2.2.2.1, hf.2.2.2.2.2.2.2.2.2.1, hf.2.2.2.2.2.2.2.2.2.2,
        hf.2.2.2.2.2.1, hf.2.2.2.2.2.2.1, hf.2.2.2.2.2.2.2.1⟩
    · exact ⟨by decide, by decide, by decide, by decide, by decide, by decide⟩
  rw [hcr, List.cons_append, parseV]
  rw [skipWs_cons_not_ws hws]
  simp only [hgs.1, hgs.2.1, hgs.2.2.1, hgs.2.2.2.1, hgs.2.2.2.2.1, hgs.2.2.2.2.2, if_false]
  have hback : c :: (r ++ rest) = intChars n ++ rest := by
    rw [← List.cons_append, ← hcr, encode_num_eq]
  rw [hback, parseIntNum_encode n rest h]
  rfl

theorem parseV_arr_nil (f : Nat) (rest : List Char) :
    parseV (f + 1) (encode (.arr []) ++ rest) = some (.arr [], rest) := by
  show parseV (f + 1) ('[' :: ']' :: rest) = _
  rw [parseV, skipWs_cons_not_ws (by decide)]
  simp [skipWs_cons_not_ws (by decide : isWs ']' = false)]

theorem encodeItems_cons_shape (x : Json) (xs : List Json) (tail : List Char) :
    ∃ tail2, encodeItems (x :: xs) ++ tail = encode x ++ tail2 := by
  cases xs with
  | nil => exact ⟨tail, rfl⟩
  | cons y r2 =>
    refine ⟨',' :: (encodeItems (y :: r2) ++ tail), ?_⟩
    show (encode x ++ ',' :: encodeItems (y :: r2)) ++ tail = _
    simp

theorem parseV_arr_cons (f : Nat) (x : Json) (xs : List Json) (rest : List Char) :
    parseV (f + 1) (encode (.arr (x :: xs)) ++ rest)
      = parseItemsF f (encodeItems (x :: xs) ++ ']' :: rest) [] := by
  have henc : encode (.arr (x :: xs)) ++ rest
      = '[' :: (encodeItems (x :: xs) ++ ']' :: rest) := by
    show ('[' :: encodeItems (x :: xs) ++ [']']) ++ rest = _
    simp
  obtain ⟨tail2, hshape⟩ := encodeItems_cons_shape x xs (']' :: rest)
  obtain ⟨c, r, hcr, hws, hnotRb, -, -, -⟩ := encode_head x
  rw [henc, parseV, skipWs_cons_not_ws (by decide)]
  simp only [if_neg (by decide : ¬ ('[' : Char) = 'n'), if_neg (by decide : ¬ ('[' : Char) = 't'),
    if_neg (by decide : ¬ ('[' : Char) = 'f'), if_neg (by decide : ¬ ('[' : Char) = '"'),
    if_pos rfl]
  rw [hshape, hcr, List.cons_append, skipWs_cons_not_ws hws]
  simp [hnotRb]

theorem parseV_obj_nil (f : Nat) (rest : List Char) :
    parseV (f + 1) (encode (.obj []) ++ rest) = some (.obj [], rest) := by
  show parseV (f + 1) (lbrace :: rbrace :: rest) = _
  rw [parseV, skipWs_cons_not_ws (by decide)]
  simp only [if_neg (by decide : ¬ lbrace = 'n'), if_neg (by decide : ¬ lbrace = 't'),
    if_neg (by decide : ¬ lbrace = 'f'), if_neg (by decide : ¬ lbrace = '"'),
    if_neg (by decide : ¬ lbrace = '['), if_pos rfl]
  rw [skipWs_cons_not_ws (by decide : isWs rbrace = false)]
  simp

theorem encodeMembers_cons_shape (k : String) (v : Json) (kvs : List (String × Json))
    (tail : List Char) :
    ∃ tail2, encodeMembers ((k, v) :: kvs) ++ tail
      = '"' :: (escList k.data ++ '"' :: (':' :: (encode v ++ tail2)))
      ∧ ((kvs = [] ∧ tail2 = tail) ∨
         (∃ m r2, kvs = m :: r2 ∧ tail2 = ',' :: (encodeMembers (m :: r2) ++ tail))) := by
  cases kvs with
  | nil =>
    refine ⟨tail, ?_, Or.inl ⟨rfl, rfl⟩⟩
    show (strLit k ++ ':' :: encode v) ++ tail = _
    simp [strLit]
  | cons m r2 =>
    refine ⟨',' :: (encodeMembers (m :: r2) ++ tail), ?_, Or.inr ⟨m, r2, rfl, rfl⟩⟩
    show (strLit k ++ ':' :: encode v ++ ',' :: encodeMembers (m :: r2)) ++ tail = _
    simp [strLit]

theorem parseV_obj_cons (f : Nat) (kv : String × Json) (kvs : List (String × Json))
    (rest : List Char) :
    parseV (f + 1) (encode (.obj (kv :: kvs)) ++ rest)
      = parseMembersF f (encodeMembers (kv :: kvs) ++ rbrace :: rest) [] := by
  obtain ⟨k, v⟩ := kv
  have henc : encode (.obj ((k, v) :: kvs)) ++ rest
      = lbrace :: (encodeMembers ((k, v) :: kvs) ++ rbrace :: rest) := by
    show (lbrace :: encodeMembers ((k, v) :: kvs) ++ [rbrace]) ++ rest = _
    simp
  obtain ⟨tail2, hshape, -⟩ := encodeMembers_cons_shape k v kvs (rbrace :: rest)
  rw [henc, parseV, skipWs_cons_not_ws (by decide)]
  simp only [if_neg (by decide : ¬ lbrace = 'n'), if_neg (by decide : ¬ lbrace = 't'),
    if_neg (by decide : ¬ lbrace = 'f'), if_neg (by decide : ¬ lbrace = '"'),
    if_neg (by decide : ¬ lbrace = '['), if_pos rfl]
  rw [hshape, skipWs_cons_not_ws (by decide)]
  simp only [if_true]
  rw [if_neg (by decide : ¬ ('"' : Char) = rbrace), ← hshape]

theorem parseItemsF_single (f : Nat) (x : Json) (acc : List Json) (rest : List Char)
    (h : parseV f (encode x ++ ']' :: rest) = some (x, ']' :: rest)) :
    parseItemsF (f + 1) (encodeItems [x] ++ ']' :: rest) acc = some (.arr (acc ++ [x]), rest) := by
  show parseItemsF (f + 1) (encode x ++ ']' :: rest) acc = _
  rw [parseItemsF, h]
  simp [skipWs_cons_not_ws (by decide : isWs ']' = false)]

theorem parseItemsF_cons (f : Nat) (x y : Json) (tail : List Json) (acc : List Json)
    (rest : List Char)
    (h : parseV f (encode x ++ ',' :: (encodeItems (y :: tail) ++ ']' :: rest))
        = some (x, ',' :: (encodeItems (y :: tail) ++ ']' :: rest))) :
    parseItemsF (f + 1) (encodeItems (x :: y :: tail) ++ ']' :: rest) acc
      = parseItemsF f (encodeItems (y :: tail) ++ ']' :: rest) (acc ++ [x]) := by
  have hshape : encodeItems (x :: y :: tail) ++ ']' :: rest
      = encode x ++ ',' :: (encodeItems (y :: tail) ++ ']' :: rest) := by
    show (encode x ++ ',' :: encodeItems (y :: tail)) ++ ']' :: rest = _
    simp
  rw [hshape, parseItemsF, h]
  simp [skipWs_cons_not_ws (by decide : isWs ',' = false)]

theorem parseMembersF_single (f : Nat) (k : String) (v : Json) (acc : List (String × Json))
    (rest : List Char)
    (h : parseV f (encode v ++ rbrace :: rest) = some (v, rbrace :: rest)) :
    parseMembersF (f + 1) (encodeMembers [(k, v)] ++ rbrace :: rest) acc
      = some (.obj (acc ++ [(k, v)]), rest) := by
  obtain ⟨tail2, hshape, hcase⟩ := encodeMembers_cons_shape k v [] (rbrace :: rest)
  rcases hcase with ⟨-, rfl⟩ | ⟨m, r2, hcontra, -⟩
  · rw [hshape, parseMembersF, skipWs_cons_not_ws (by decide)]
    simp only [if_pos rfl]
    rw [parseStrRest_escList]
    simp only
    rw [skipWs_cons_not_ws (by decide)]
    simp only [if_pos rfl]
    rw [h]
    simp [skipWs_cons_not_ws (by decide : isWs rbrace = false), string_mk_data,
      (by decide : ¬ rbrace = ',')]
  · exact absurd hcontra (by simp)

theorem parseMembersF_cons (f : Nat) (k : String) (v : Json) (m : String × Json)
    (tail : List (String × Json)) (acc : List (String × Json)) (rest : List Char)
    (h : parseV f (encode v ++ ',' :: (encodeMembers (m :: tail) ++ rbrace :: rest))
        = some (v, ',' :: (encodeMembers (m :: tail) ++ rbrace :: rest))) :
    parseMembersF (f + 1) (encodeMembers ((k, v) :: m :: tail) ++ rbrace :: rest) acc
      = parseMembersF f (encodeMembers (m :: tail) ++ rbrace :: rest) (acc ++ [(k, v)]) := by
  obtain ⟨tail2, hshape, hcase⟩ := encodeMembers_cons_shape k v (m :: tail) (rbrace :: rest)
  rcases hcase with ⟨hcontra, -⟩ | ⟨m2, r2, hmr, htail2⟩
  · exact absurd hcontra (by simp)
  · cases hmr
    subst htail2
    rw [hshape, parseMembersF, skipWs_cons_not_ws (by decide)]
    simp only [if_pos rfl]
    rw [parseStrRest_escList]
    simp only
    rw [skipWs_cons_not_ws (by decide)]
    simp only [if_pos rfl]
    rw [h]
    simp [skipWs_cons_not_ws (by decide : isWs ',' = false), string_mk_data,
      (by decide : ¬ (',' : Char) = rbrace)]

mutual
theorem jsz_pos (v : Json) : 1 ≤ jsz v := by
  cases v with
  | null => simp [jsz]
  | bool b => simp [jsz]
  | num n => simp [jsz]
  | str s => simp [jsz]
  | arr xs => have := jszItems_nonneg xs; simp [jsz]
  | obj kvs => have := jszMembers_nonneg kvs; simp [jsz]

theorem jszItems_nonneg (xs : List Json) : 0 ≤ jszItems xs := by
  cases xs with
  | nil => simp [jszItems]
  | cons x r => have := jsz_pos x; have := jszItems_nonneg r; simp [jszItems]

theorem jszMembers_nonneg (kvs : List (String × Json)) : 0 ≤ jszMembers kvs := by
  cases kvs with
  | nil => simp [jszMembers]
  | cons kv r =>
    obtain ⟨k, v⟩ := kv
    have := jsz_pos v; have := jszMembers_nonneg r; simp [jszMembers]
end

theorem parse_round_trip (fuel : Nat) :
    (∀ v rest, jsz v ≤ fuel → okRest rest = true →
       parseV fuel (encode v ++ rest) = some (v, rest))
  ∧ (∀ xs acc rest, xs ≠ [] → jszItems xs ≤ fuel →
       parseItemsF fuel (encodeItems xs ++ ']' :: rest) acc = some (.arr (acc ++ xs), rest))
  ∧ (∀ kvs acc rest, kvs ≠ [] → jszMembers kvs ≤ fuel →
       parseMembersF fuel (encodeMembers kvs ++ rbrace :: rest) acc
         = some (.obj (acc ++ kvs), rest)) := by
  induction fuel with
  | zero =>
    refine ⟨?_, ?_, ?_⟩
    · intro v rest hf _
      have := jsz_pos v
      omega
    · intro xs acc rest hne hf
      cases xs with
      | nil => exact absurd rfl hne
      | cons x t =>
        simp only [jszItems] at hf
        omega
    · intro kvs acc rest hne hf
      cases kvs with
      | nil => exact absurd rfl hne
      | cons kv t =>
        obtain ⟨k, v⟩ := kv
        simp only [jszMembers] at hf
        omega
  | succ f ih =>
    obtain ⟨ihV, ihI, ihM⟩ := ih
    refine ⟨?_, ?_, ?_⟩
    · intro v rest hf hrest
      cases v with
      | null => exact parseV_null f rest
      | bool b => exact parseV_bool f b rest
      | num n => exact parseV_num f n rest hrest
      | str s => exact parseV_str f s rest
      | arr xs =>
        cases xs with
        | nil => exact parseV_arr_nil f rest
        | cons x t =>
          rw [parseV_arr_cons]
          have hsz : jszItems (x :: t) ≤ f := by
            simp only [jsz] at hf
            omega
          rw [ihI (x :: t) [] rest (by simp) hsz]
          simp
      | obj kvs =>
        cases kvs with
        | nil => exact parseV_obj_nil f rest
        | cons kv t =>
          rw [parseV_obj_cons]
          have hsz : jszMembers (kv :: t) ≤ f := by
            simp only [jsz] at hf
            omega
          rw [ihM (kv :: t) [] rest (by simp) hsz]
          simp
    · intro xs acc rest hne hf
      cases xs with
      | nil => exact absurd rfl hne
      | cons x t =>
        cases t with
        | nil =>
          have hszx : jsz x ≤ f := by
            simp only [jszItems] at hf
            omega
          exact parseItemsF_single f x acc rest (ihV x (']' :: rest) hszx rfl)
        | cons y t2 =>
          have hszx : jsz x ≤ f := by
            simp only [jszItems] at hf
            omega
          have hszt : jszItems (y :: t2) ≤ f := by
            simp only [jszItems] at hf ⊢
            omega
          rw [parseItemsF_cons f x y t2 acc rest (ihV x _ hszx rfl)]
          rw [ihI (y :: t2) (acc ++ [x]) rest (by simp) hszt]
          simp
    · intro kvs acc rest hne hf
      cases kvs with
      | nil => exact absurd rfl hne
      | cons kv t =>
        obtain ⟨k, v⟩ := kv
        cases t with
        | nil =>
          have hszv : jsz v ≤ f := by
            simp only [jszMembers] at hf
            omega
          exact parseMembersF_single f k v acc rest (ihV v (rbrace :: rest) hszv rfl)
        | cons m t2 =>
          have hszv : jsz v ≤ f := by
            simp only [jszMembers] at hf
            omega
          have hszt : jszMembers (m :: t2) ≤ f := by
            obtain ⟨k2, v2⟩ := m
            simp only [jszMembers] at hf ⊢
            omega
          rw [parseMembersF_cons f k v m t2 acc rest (ihV v _ hszv rfl)]
          rw [ihM (m :: t2) (acc ++ [(k, v)]) rest (by simp) hszt]
          simp

/-- Decoder/encoder round trip: `json.loads` recovers any encoded value. -/
theorem loads_encode (v : Json) : loads (encode v) = some v := by
  rw [loads]
  have hfuel : jsz v ≤ (encode v).length + 1 := le_trans (jsz_le_encode v) (by omega)
  have h := (parse_round_trip ((encode v).length + 1)).1 v [] hfuel rfl
  rw [List.append_nil] at h
  rw [h]
  simp [skipWs]

/-! ### Writer structure -/

theorem sessionBody_comma (r : Bool) (ms : List Json) (h : ms ≠ []) :
    sessionBody r false ms = ',' :: encodeItems ms := by
  induction ms with
  | nil => exact absurd rfl h
  | cons m t ih =>
    cases t with
    | nil => simp [sessionBody, recSep, encodeItems]
    | cons y t2 =>
      show recSep r false ++ encode m ++ sessionBody r false (y :: t2) = _
      rw [ih (by simp)]
      simp [recSep, encodeItems]

theorem sessionBody_fresh (msgs : List Json) : sessionBody false true msgs = encodeItems msgs := by
  cases msgs with
  | nil => rfl
  | cons m t =>
    cases t with
    | nil => simp [sessionBody, recSep, encodeItems]
    | cons y t2 =>
      show recSep false true ++ encode m ++ sessionBody false false (y :: t2) = _
      rw [sessionBody_comma false (y :: t2) (by simp)]
      simp [recSep, encodeItems]

theorem sessionBody_resumed (msgs : List Json) (h : msgs ≠ []) :
    sessionBody true true msgs = ',' :: encodeItems msgs := by
  cases msgs with
  | nil => exact absurd rfl h
  | cons m t =>
    cases t with
    | nil => simp [sessionBody, recSep, encodeItems]
    | cons y t2 =>
      show recSep true true ++ encode m ++ sessionBody true false (y :: t2) = _
      rw [sessionBody_comma true (y :: t2) (by simp)]
      simp [recSep, encodeItems]

theorem freshFile_eq_encode (msgs : List Json) : freshFile msgs = encode (.arr msgs) := by
  rw [freshFile, sessionBody_fresh]
  rfl

theorem encodeItems_append (a b : List Json) (ha : a ≠ []) (hb : b ≠ []) :
    encodeItems (a ++ b) = encodeItems a ++ ',' :: encodeItems b := by
  induction a with
  | nil => exact absurd rfl ha
  | cons x t ih =>
    cases t with
    | nil =>
      cases b with
      | nil => exact absurd rfl hb
      | cons y t2 => rfl
    | cons x2 t2 =>
      show encodeItems (x :: (x2 :: t2 ++ b)) = _
      have hcons : x2 :: t2 ++ b = x2 :: (t2 ++ b) := rfl
      rw [hcons]
      show encode x ++ ',' :: encodeItems (x2 :: (t2 ++ b)) = _
      rw [← hcons, ih (by simp)]
      simp [encodeItems]

theorem freshFile_getLast (msgs : List Json) : (freshFile msgs).getLast? = some ']' := by
  show (('[' :: sessionBody false true msgs) ++ [']']).getLast? = _
  rw [List.getLast?_append_of_ne_nil _ (by simp)]
  rfl

theorem freshFile_dropLast (msgs : List Json) :
    (freshFile msgs).dropLast = '[' :: sessionBody false true msgs := by
  show (('[' :: sessionBody false true msgs) ++ [']']).dropLast = _
  rw [List.dropLast_concat]

theorem freshFile_append (a b : List Json) (ha : a ≠ []) (hb : b ≠ []) :
    (freshFile a).dropLast ++ resume_append b = freshFile (a ++ b) := by
  rw [freshFile_dropLast, resume_append, sessionBody_resumed b hb]
  show ('[' :: sessionBody false true a) ++ (',' :: encodeItems b ++ [']']) = _
  rw [freshFile, sessionBody_fresh, sessionBody_fresh, encodeItems_append a b ha hb]
  simp

/-! ### Scanner single steps -/

theorem curly_ne_exit {s : ScanSt} (h : s.curly < 0) : (s.curly == 0) = false := by
  simp only [beq_eq_false_iff_ne, ne_eq]
  omega

theorem scanStep_ws {c : Char} (h : isWs c = true) (s : ScanSt) : scanStep s c = (s, false) := by
  simp [scanStep, h]

theorem scanStep_plain {c : Char} (s : ScanSt) (hs : s.inStr = false)
    (hws : isWs c = false) (hq : c ≠ '"') (hb1 : c ≠ '[') (hb2 : c ≠ ']')
    (hc1 : c ≠ lbrace) (hc2 : c ≠ rbrace) :
    scanStep s c = (s, s.curly == 0) := by
  simp [scanStep, hws, hs, hq, hb1, hb2, hc1, hc2]

theorem scanStep_open_sq (s : ScanSt) (hs : s.inStr = false) :
    scanStep s '[' = ({ s with square := s.square + 1 }, s.curly == 0) := by
  simp [scanStep, hs, (by decide : isWs '[' = false)]

theorem scanStep_close_sq (s : ScanSt) (hs : s.inStr = false) :
    scanStep s ']' = ({ s with square := s.square - 1 }, s.curly == 0) := by
  simp [scanStep, hs, (by decide : isWs ']' = false)]

theorem scanStep_open_curly (s : ScanSt) (hs : s.inStr = false) :
    scanStep s lbrace = ({ s with curly := s.curly + 1 }, s.curly + 1 == 0) := by
  simp [scanStep, hs, (by decide : isWs lbrace = false), (by decide : ¬ lbrace = '"'),
    (by decide : ¬ lbrace = '['), (by decide : ¬ lbrace = ']')]

theorem scanStep_close_curly (s : ScanSt) (hs : s.inStr = false) :
    scanStep s rbrace = ({ s with curly := s.curly - 1 }, s.curly - 1 == 0) := by
  simp [scanStep, hs, (by decide : isWs rbrace = false), (by decide : ¬ rbrace = '"'),
    (by decide : ¬ rbrace = '['), (by decide : ¬ rbrace = ']'), (by decide : ¬ rbrace = lbrace)]

theorem scanStep_quote_enter (s : ScanSt) (hs : s.inStr = false) :
    scanStep s '"' = ({ s with inStr := true }, false) := by
  simp [scanStep, hs, (by decide : isWs '"' = false)]

theorem scanStep_instr_quote (s : ScanSt) (hs : s.inStr = true) :
    scanStep s '"' = ({ s with fq := true }, false) := by
  simp [scanStep, hs, (by decide : isWs '"' = false)]

theorem scanStep_instr_plain (s : ScanSt) {c : Char} (hs : s.inStr = true) (hfq : s.fq = false)
    (hq : c ≠ '"') (hws : isWs c = false) :
    scanStep s c = (s, false) := by
  simp [scanStep, hs, hfq, hq, hws]

theorem scanStep_fq_backslash (s : ScanSt) (hs : s.inStr = true) (hfq : s.fq = true) :
    scanStep s '\\' = ({ s with fq := false }, false) := by
  simp [scanStep, hs, hfq, (by decide : isWs '\\' = false)]

theorem scanStep_resolve (s : ScanSt) {c : Char} (hs : s.inStr = false) (hf : s.fq = false)
    (hws : isWs c = false) (hq : c ≠ '"') (hb : c ≠ '\\') :
    scanStep { s with inStr := true, fq := true } c = scanStep s c := by
  have hs2 : ({ s with inStr := true, fq := true } : ScanSt) =
      { square := s.square, curly := s.curly, inStr := true, fq := true } := rfl
  simp only [scanStep, hws, hs, hs2, hq, hb]
  cases s
  simp_all [scanStep]

/-! ### Scanner runs -/

theorem scanAll_nil (s : ScanSt) : scanAll s [] = s := rfl

theorem scanAll_cons (s : ScanSt) (c : Char) (cs : List Char) :
    scanAll s (c :: cs) = scanAll (scanStep s c).1 cs := rfl

theorem scanAll_append (s : ScanSt) (a b : List Char) :
    scanAll s (a ++ b) = scanAll (scanAll s a) b := by
  simp [scanAll, List.foldl_append]

theorem noExit_cons (s : ScanSt) (c : Char) (cs : List Char) :
    noExit s (c :: cs) = (!(scanStep s c).2 && noExit (scanStep s c).1 cs) := by
  rw [noExit]
  rcases h : scanStep s c with ⟨s2, e⟩
  cases e <;> simp

theorem noExit_append (s : ScanSt) (a b : List Char) :
    noExit s (a ++ b) = (noExit s a && noExit (scanAll s a) b) := by
  induction a generalizing s with
  | nil => simp [noExit, scanAll_nil]
  | cons c t ih =>
    rw [List.cons_append, noExit_cons, noExit_cons, scanAll_cons, ih]
    cases (scanStep s c).2 <;> simp

theorem extractBackward_append (s : ScanSt) (a b : List Char) (h : noExit s a = true) :
    extractBackward s (a ++ b) = a ++ extractBackward (scanAll s a) b := by
  induction a generalizing s with
  | nil => simp [scanAll_nil]
  | cons c t ih =>
    rw [noExit_cons] at h
    rcases hstep : scanStep s c with ⟨s2, e⟩
    rw [hstep] at h
    cases e with
    | true => simp at h
    | false =>
      simp only [Bool.not_false, Bool.true_and] at h
      rw [List.cons_append, extractBackward, hstep]
      simp only [if_neg (by simp : ¬ false = true)]
      rw [scanAll_cons, hstep]
      rw [ih _ h]
      rfl

theorem extractBackward_exit (s : ScanSt) (c : Char) (rest : List Char)
    (h : (scanStep s c).2 = true) :
    extractBackward s (c :: rest) = [c] := by
  rw [extractBackward]
  rcases hstep : scanStep s c with ⟨s2, e⟩
  rw [hstep] at h
  simp at h
  subst h
  simp

/-! ### Scanning encoded values backward -/

theorem scan_plain_list (cs : List Char) (s : ScanSt) (hs : s.inStr = false) (hc : s.curly < 0)
    (hcs : ∀ c ∈ cs, isWs c = true ∨
      (c ≠ '"' ∧ c ≠ '[' ∧ c ≠ ']' ∧ c ≠ lbrace ∧ c ≠ rbrace)) :
    noExit s cs = true ∧ scanAll s cs = s := by
  induction cs with
  | nil => exact ⟨rfl, rfl⟩
  | cons c t ih =>
    have hc2 := hcs c (List.mem_cons_self c t)
    have hstep : scanStep s c = (s, s.curly == 0) ∨ scanStep s c = (s, false) := by
      rcases hc2 with hws | ⟨h1, h2, h3, h4, h5⟩
      · exact Or.inr (scanStep_ws hws s)
      · by_cases hws : isWs c = true
        · exact Or.inr (scanStep_ws hws s)
        · exact Or.inl (scanStep_plain s hs (by simpa using hws) h1 h2 h3 h4 h5)
    have hrest := ih (fun c2 hc2 => hcs c2 (List.mem_cons_of_mem c hc2))
    rcases hstep with hstep | hstep
    · rw [noExit_cons, scanAll_cons, hstep]
      simp only [curly_ne_exit hc]
      exact ⟨by simp [hrest.1], hrest.2⟩
    · rw [noExit_cons, scanAll_cons, hstep]
      exact ⟨by simp [hrest.1], hrest.2⟩

theorem scan_escList_rev (d : List Char) (s : ScanSt) (hs : s.inStr = true) (hf : s.fq = false) :
    noExit s (escList d).reverse = true ∧ scanAll s (escList d).reverse = s := by
  induction d generalizing s with
  | nil => exact ⟨rfl, rfl⟩
  | cons c ds ih =>
    have hrev : (escList (c :: ds)).reverse
        = (escList ds).reverse ++ (escChar c).reverse := by
      show (escChar c ++ escList ds).reverse = _
      rw [List.reverse_append]
    have hih := ih s hs hf
    by_cases hq : c = '"'
    · subst hq
      have hchar : (escChar '"').reverse = ['"', '\\'] := rfl
      rw [hrev, hchar, noExit_append, scanAll_append, hih.2]
      have h1 : scanStep s '"' = ({ s with fq := true }, false) := scanStep_instr_quote s hs
      have h2 : scanStep { s with fq := true } '\\' = ({ s with fq := false }, false) :=
        scanStep_fq_backslash _ hs rfl
      have hs3 : ({ s with fq := false } : ScanSt) = s := by
        cases s
        simp_all
      constructor
      · simp [hih.1, noExit_cons, h1, h2, noExit]
      · rw [scanAll_cons, h1, scanAll_cons]
        simp only
        rw [h2, hs3]
        rfl
    · by_cases hb : c = '\\'
      · subst hb
        have hchar : (escChar '\\').reverse = ['\\', '\\'] := rfl
        rw [hrev, hchar, noExit_append, scanAll_append, hih.2]
        have h1 : scanStep s '\\' = (s, false) :=
          scanStep_instr_plain s hs hf (by decide) (by decide)
        constructor
        · simp [hih.1, noExit_cons, h1, noExit]
        · rw [scanAll_cons, h1, scanAll_cons, h1]
          rfl
      · have hchar : (escChar c).reverse = [c] := by simp [escChar, hq, hb]
        rw [hrev, hchar, noExit_append, scanAll_append, hih.2]
        have h1 : scanStep s c = (s, false) := by
          by_cases hws : isWs c = true
          · exact scanStep_ws hws s
          · exact scanStep_instr_plain s hs hf hq (by simpa using hws)
        constructor
        · simp [hih.1, noExit_cons, h1, noExit]
        · rw [scanAll_cons, h1]
          rfl

theorem scan_strLit_rev (k : String) (s : ScanSt) (hs : s.inStr = false) (hf : s.fq = false) :
    noExit s (strLit k).reverse = true
    ∧ scanAll s (strLit k).reverse = { s with inStr := true, fq := true } := by
  have hrev : (strLit k).reverse = '"' :: ((escList k.data).reverse ++ ['"']) := by
    show ('"' :: (escList k.data ++ ['"'])).reverse = _
    rw [List.reverse_cons, List.reverse_append]
    simp
  have h1 : scanStep s '"' = ({ s with inStr := true }, false) := scanStep_quote_enter s hs
  have hesc := scan_escList_rev k.data { s with inStr := true } rfl hf
  have h2 : scanStep { s with inStr := true } '"' = ({ s with inStr := true, fq := true }, false) :=
    scanStep_instr_quote _ rfl
  rw [hrev]
  constructor
  · rw [noExit_cons, h1]
    simp only [Bool.not_false, Bool.true_and]
    rw [noExit_append, hesc.1, hesc.2]
    simp [noExit_cons, h2, noExit]
  · rw [scanAll_cons, h1]
    simp only
    rw [scanAll_append, hesc.2, scanAll_cons, h2]
    rfl

theorem beq_zero_false {a : Int} (h : a < 0) : (a == 0) = false := by
  simp only [beq_eq_false_iff_ne, ne_eq]
  omega

theorem scanStep_after (v : Json) (s : ScanSt) (hs : s.inStr = false) (hf : s.fq = false)
    {c : Char} (hws : isWs c = false) (hq : c ≠ '"') (hb : c ≠ '\\') :
    scanStep (match v with
      | .str _ => { s with inStr := true, fq := true }
      | _ => s) c = scanStep s c := by
  cases v with
  | str s0 => exact scanStep_resolve s hs hf hws hq hb
  | null => rfl
  | bool b => rfl
  | num n => rfl
  | arr xs => rfl
  | obj kvs => rfl

theorem intChars_mem (n : Int) : ∀ c ∈ intChars n, c.isDigit = true ∨ c = '-' := by
  intro c hc
  rw [intChars] at hc
  by_cases hneg : n < 0
  · rw [if_pos hneg] at hc
    rcases List.mem_cons.mp hc with rfl | hmem
    · exact Or.inr rfl
    · exact Or.inl (natDigitsAux_digits _ _ (Or.inl le_rfl) c hmem)
  · rw [if_neg hneg] at hc
    exact Or.inl (natDigitsAux_digits _ _ (Or.inl le_rfl) c hc)

theorem scanStep_afterItems (xs : List Json) (s : ScanSt) (hs : s.inStr = false)
    (hf : s.fq = false) {c : Char} (hws : isWs c = false) (hq : c ≠ '"') (hb : c ≠ '\\') :
    scanStep (match xs with
      | [] => s
      | x :: _ =>
        match x with
        | .str _ => { s with inStr := true, fq := true }
        | _ => s) c = scanStep s c := by
  cases xs with
  | nil => rfl
  | cons x t => exact scanStep_after x s hs hf hws hq hb

theorem scanStep_afterMembers (kvs : List (String × Json)) (s : ScanSt) (hs : s.inStr = false)
    (hf : s.fq = false) {c : Char} (hws : isWs c = false) (hq : c ≠ '"') (hb : c ≠ '\\') :
    scanStep (match kvs with
      | [] => s
      | _ :: _ => { s with inStr := true, fq := true }) c = scanStep s c := by
  cases kvs with
  | nil => rfl
  | cons kv t => exact scanStep_resolve s hs hf hws hq hb

mutual
theorem scan_encode_rev (v : Json) (s : ScanSt) (hs : s.inStr = false) (hf : s.fq = false)
    (hc : s.curly < 0) :
    noExit s (encode v).reverse = true
    ∧ scanAll s (encode v).reverse
        = (match v with
           | .str _ => { s with inStr := true, fq := true }
           | _ => s) := by
  cases v with
  | null =>
    refine scan_plain_list _ s hs hc ?_
    decide
  | bool b =>
    cases b with
    | false =>
      refine scan_plain_list _ s hs hc ?_
      decide
    | true =>
      refine scan_plain_list _ s hs hc ?_
      decide
  | num n =>
    refine scan_plain_list _ s hs hc ?_
    intro c hcmem
    right
    rw [List.mem_reverse] at hcmem
    have henc : encode (Json.num n) = intChars n := rfl
    rw [henc] at hcmem
    rcases intChars_mem n c hcmem with hdig | rfl
    · have hfacts := digit_not_special hdig
      exact ⟨hfacts.2.2.2.2.2.1, hfacts.2.2.2.2.2.2.1, hfacts.1, hfacts.2.2.2.2.2.2.2.1,
        hfacts.2.1⟩
    · exact ⟨by decide, by decide, by decide, by decide, by decide⟩
  | str s0 => exact scan_strLit_rev s0 s hs hf
  | arr xs =>
    have hrev : (encode (.arr xs)).reverse = ']' :: ((encodeItems xs).reverse ++ ['[']) := by
      show (('[' :: encodeItems xs) ++ [']']).reverse = _
      rw [List.reverse_append, List.reverse_cons]
      simp
    have hstep1 : scanStep s ']' = ({ s with square := s.square - 1 }, false) := by
      rw [scanStep_close_sq s hs, curly_ne_exit hc]
    have hs1 : ({ s with square := s.square - 1 } : ScanSt).inStr = false := hs
    have hf1 : ({ s with square := s.square - 1 } : ScanSt).fq = false := hf
    have hc1 : ({ s with square := s.square - 1 } : ScanSt).curly < 0 := hc
    have hitems := scan_items_rev xs { s with square := s.square - 1 } hs1 hf1 hc1
    have hstepLast : scanStep (scanAll { s with square := s.square - 1 }
        (encodeItems xs).reverse) '[' = (s, false) := by
      rw [hitems.2, scanStep_afterItems xs _ hs1 hf1 (by decide) (by decide) (by decide)]
      rw [scanStep_open_sq _ hs1]
      simp only [Prod.mk.injEq]
      refine ⟨?_, ?_⟩
      · cases s
        simp
      · exact curly_ne_exit hc
    constructor
    · rw [hrev, noExit_cons, hstep1]
      simp only [Bool.not_false, Bool.true_and]
      rw [noExit_append, hitems.1]
      simp only [Bool.true_and]
      rw [noExit_cons, hstepLast]
      simp [noExit]
    · rw [hrev, scanAll_cons, hstep1]
      simp only
      rw [scanAll_append, scanAll_cons, hstepLast]
      rfl
  | obj kvs =>
    have hrev : (encode (.obj kvs)).reverse
        = rbrace :: ((encodeMembers kvs).reverse ++ [lbrace]) := by
      show ((lbrace :: encodeMembers kvs) ++ [rbrace]).reverse = _
      rw [List.reverse_append, List.reverse_cons]
      simp
    have hstep1 : scanStep s rbrace = ({ s with curly := s.curly - 1 }, false) := by
      rw [scanStep_close_curly s hs, beq_zero_false (by omega)]
    have hs1 : ({ s with curly := s.curly - 1 } : ScanSt).inStr = false := hs
    have hf1 : ({ s with curly := s.curly - 1 } : ScanSt).fq = false := hf
    have hc1 : ({ s with curly := s.curly - 1 } : ScanSt).curly < 0 := by
      show s.curly - 1 < 0
      omega
    have hmembs := scan_members_rev kvs { s with curly := s.curly - 1 } hs1 hf1 hc1
    have hstepLast : scanStep (scanAll { s with curly := s.curly - 1 }
        (encodeMembers kvs).reverse) lbrace = (s, false) := by
      rw [hmembs.2, scanStep_afterMembers kvs _ hs1 hf1 (by decide) (by decide) (by decide)]
      rw [scanStep_open_curly _ hs1]
      simp only [Prod.mk.injEq]
      refine ⟨?_, ?_⟩
      · cases s
        simp
      · show (({ s with curly := s.curly - 1 } : ScanSt).curly + 1 == 0) = false
        have : ({ s with curly := s.curly - 1 } : ScanSt).curly + 1 = s.curly := by
          show s.curly - 1 + 1 = s.curly
          omega
        rw [this]
        exact curly_ne_exit hc
    constructor
    · rw [hrev, noExit_cons, hstep1]
      simp only [Bool.not_false, Bool.true_and]
      rw [noExit_append, hmembs.1]
      simp only [Bool.true_and]
      rw [noExit_cons, hstepLast]
      simp [noExit]
    · rw [hrev, scanAll_cons, hstep1]
      simp only
      rw [scanAll_append, scanAll_cons, hstepLast]
      rfl

theorem scan_items_rev (xs : List Json) (s : ScanSt) (hs : s.inStr = false) (hf : s.fq = false)
    (hc : s.curly < 0) :
    noExit s (encodeItems xs).reverse = true
    ∧ scanAll s (encodeItems xs).reverse
        = (match xs with
           | [] => s
           | x :: _ =>
             match x with
             | .str _ => { s with inStr := true, fq := true }
             | _ => s) := by
  cases xs with
  | nil => exact ⟨rfl, rfl⟩
  | cons x t =>
    cases t with
    | nil =>
      have heq : encodeItems [x] = encode x := rfl
      rw [heq]
      exact scan_encode_rev x s hs hf hc
    | cons y t2 =>
      have hrev : (encodeItems (x :: y :: t2)).reverse
          = (encodeItems (y :: t2)).reverse ++ (',' :: (encode x).reverse) := by
        show (encode x ++ ',' :: encodeItems (y :: t2)).reverse = _
        rw [List.reverse_append, List.reverse_cons]
        simp
      have htail := scan_items_rev (y :: t2) s hs hf hc
      have hstepComma : scanStep (scanAll s (encodeItems (y :: t2)).reverse) ',' = (s, false) := by
        rw [htail.2, scanStep_afterItems (y :: t2) s hs hf (by decide) (by decide) (by decide)]
        rw [scanStep_plain s hs (by decide) (by decide) (by decide) (by decide) (by decide)
          (by decide)]
        rw [curly_ne_exit hc]
      have hx := scan_encode_rev x s hs hf hc
      constructor
      · rw [hrev, noExit_append, htail.1]
        simp only [Bool.true_and]
        rw [noExit_cons, hstepComma]
        simpa using hx.1
      · rw [hrev, scanAll_append, scanAll_cons, hstepComma]
        simp only
        exact hx.2

theorem scan_members_rev (kvs : List (String × Json)) (s : ScanSt) (hs : s.inStr = false)
    (hf : s.fq = false) (hc : s.curly < 0) :
    noExit s (encodeMembers kvs).reverse = true
    ∧ scanAll s (encodeMembers kvs).reverse
        = (match kvs with
           | [] => s
           | _ :: _ => { s with inStr := true, fq := true }) := by
  cases kvs with
  | nil => exact ⟨rfl, rfl⟩
  | cons kv t =>
    obtain ⟨k, v⟩ := kv
    cases t with
    | nil =>
      have hrev : (encodeMembers [(k, v)]).reverse
          = ((encode v).reverse ++ [':']) ++ (strLit k).reverse := by
        show (strLit k ++ ':' :: encode v).reverse = _
        rw [List.reverse_append, List.reverse_cons]
      have hv := scan_encode_rev v s hs hf hc
      have hstepColon : scanStep (scanAll s (encode v).reverse) ':' = (s, false) := by
        rw [hv.2, scanStep_after v s hs hf (by decide) (by decide) (by decide)]
        rw [scanStep_plain s hs (by decide) (by decide) (by decide) (by decide) (by decide)
          (by decide)]
        rw [curly_ne_exit hc]
      have hlit := scan_strLit_rev k s hs hf
      constructor
      · rw [hrev, noExit_append, noExit_append, hv.1]
        simp only [Bool.true_and]
        rw [noExit_cons, hstepColon]
        simp only [Bool.not_false, Bool.true_and, noExit]
        rw [scanAll_append, scanAll_cons, hstepColon]
        simpa using hlit.1
      · rw [hrev, scanAll_append, scanAll_append, scanAll_cons, hstepColon]
        simp only
        exact hlit.2
    | cons m t2 =>
      have hrev : (encodeMembers ((k, v) :: m :: t2)).reverse
          = (encodeMembers (m :: t2)).reverse
            ++ (',' :: (((encode v).reverse ++ [':']) ++ (strLit k).reverse)) := by
        show ((strLit k ++ ':' :: encode v) ++ ',' :: encodeMembers (m :: t2)).reverse = _
        rw [List.reverse_append, List.reverse_cons, List.reverse_append, List.reverse_cons]
        simp
      have htail := scan_members_rev (m :: t2) s hs hf hc
      have hstepComma : scanStep (scanAll s (encodeMembers (m :: t2)).reverse) ',' = (s, false) := by
        rw [htail.2, scanStep_afterMembers (m :: t2) s hs hf (by decide) (by decide) (by decide)]
        rw [scanStep_plain s hs (by decide) (by decide) (by decide) (by decide) (by decide)
          (by decide)]
        rw [curly_ne_exit hc]
      have hv := scan_encode_rev v s hs hf hc
      have hstepColon : scanStep (scanAll s (encode v).reverse) ':' = (s, false) := by
        rw [hv.2, scanStep_after v s hs hf (by decide) (by decide) (by decide)]
        rw [scanStep_plain s hs (by decide) (by decide) (by decide) (by decide) (by decide)
          (by decide)]
        rw [curly_ne_exit hc]
      have hlit := scan_strLit_rev k s hs hf
      constructor
      · rw [hrev, noExit_append, htail.1]
        simp only [Bool.true_and]
        rw [noExit_cons, hstepComma]
        simp only [Bool.not_false, Bool.true_and]
        rw [noExit_append, noExit_append, hv.1]
        simp only [Bool.true_and]
        rw [noExit_cons, hstepColon]
        simp only [Bool.not_false, Bool.true_and, noExit]
        rw [scanAll_append, scanAll_cons, hstepColon]
        simpa using hlit.1
      · rw [hrev, scanAll_append, scanAll_cons, hstepComma]
        simp only
        rw [scanAll_append, scanAll_append, scanAll_cons, hstepColon]
        exact hlit.2
end

theorem extractBackward_cons_noexit (s : ScanSt) (c : Char) (cs : List Char)
    (h : (scanStep s c).2 = false) :
    extractBackward s (c :: cs) = c :: extractBackward (scanStep s c).1 cs := by
  rw [extractBackward]
  rcases hstep : scanStep s c with ⟨s2, e⟩
  rw [hstep] at h
  simp at h
  subst h
  simp

/-- The second loop of `get_last_json_object`, run on a stream that starts
with the reversed encoding of an object, accumulates exactly that reversed
encoding: the exit condition (`curly_nests == 0`) first holds at the
object's opening brace. -/
theorem extract_last_obj (kvs : List (String × Json)) (rest : List Char) :
    extractBackward initScan ((encode (.obj kvs)).reverse ++ rest)
      = (encode (.obj kvs)).reverse := by
  have hrev : (encode (.obj kvs)).reverse
      = rbrace :: ((encodeMembers kvs).reverse ++ [lbrace]) := by
    show ((lbrace :: encodeMembers kvs) ++ [rbrace]).reverse = _
    rw [List.reverse_append, List.reverse_cons]
    simp
  have hstep1 : scanStep initScan rbrace = (⟨0, -1, false, false⟩, false) := by rfl
  have hmembs := scan_members_rev kvs ⟨0, -1, false, false⟩ rfl rfl (by norm_num)
  have hstepLast : scanStep (scanAll ⟨0, -1, false, false⟩ (encodeMembers kvs).reverse) lbrace
      = (⟨0, 0, false, false⟩, true) := by
    rw [hmembs.2, scanStep_afterMembers kvs _ rfl rfl (by decide) (by decide) (by decide)]
    rfl
  rw [hrev, List.cons_append]
  rw [extractBackward_cons_noexit _ _ _ (by rw [hstep1])]
  rw [hstep1]
  simp only
  have hassoc : ((encodeMembers kvs).reverse ++ [lbrace]) ++ rest
      = (encodeMembers kvs).reverse ++ (lbrace :: rest) := by
    simp
  rw [hassoc, extractBackward_append _ _ _ hmembs.1]
  rw [extractBackward_exit _ _ _ (by rw [hstepLast])]

/-! ### The chunked backward read -/

theorem read_backwards_flatten_aux (s : List Char) (c : Nat) (hc : 0 < c) :
    ∀ j, j ≤ s.length / c →
      ((((List.range j).map
          (fun i => (s.drop (s.length - (i + 1) * c)).take c)).map List.reverse).flatten)
        = (s.drop (s.length - j * c)).reverse := by
  intro j
  induction j with
  | zero =>
    intro _
    simp [List.drop_eq_nil_of_le]
  | succ j ih =>
    intro hj
    rw [List.range_succ, List.map_append, List.map_append, List.flatten_append,
      ih (by omega)]
    have hjc : (j + 1) * c ≤ s.length := by
      have h1 : (j + 1) ≤ s.length / c := hj
      calc (j + 1) * c ≤ (s.length / c) * c := Nat.mul_le_mul_right c h1
        _ ≤ s.length := Nat.div_mul_le_self _ _
    have hsplit : s.drop (s.length - (j + 1) * c)
        = (s.drop (s.length - (j + 1) * c)).take c ++ s.drop (s.length - j * c) := by
      have hdd : (s.drop (s.length - (j + 1) * c)).drop c = s.drop (s.length - j * c) := by
        rw [List.drop_drop]
        congr 1
        have : (j + 1) * c = j * c + c := by ring
        omega
      conv_lhs => rw [← List.take_append_drop c (s.drop (s.length - (j + 1) * c))]
      rw [hdd]
    simp only [List.map_cons, List.map_nil, List.flatten_cons, List.flatten_nil,
      List.append_nil]
    rw [← List.reverse_append, ← hsplit]

theorem read_backwards_flatten (s : List Char) (c : Nat) (hc : 0 < c) :
    ((read_backwards s c).map List.reverse).flatten = s.reverse := by
  rw [read_backwards, List.map_append, List.flatten_append]
  rw [read_backwards_flatten_aux s c hc (s.length / c) le_rfl]
  have hd := Nat.div_add_mod s.length c
  have hmod : s.length - (s.length / c) * c = s.length % c := by
    have h2 : c * (s.length / c) = (s.length / c) * c := Nat.mul_comm _ _
    omega
  rw [hmod]
  simp only [List.map_cons, List.map_nil, List.flatten_cons, List.flatten_nil, List.append_nil]
  rw [← List.reverse_append, List.take_append_drop]

theorem read_backwards_head (s : List Char) (c : Nat) (hc : 0 < c) (hne : s ≠ []) :
    ∃ B rest, read_backwards s c = B :: rest ∧ B ≠ [] ∧ B.getLast? = s.getLast? := by
  by_cases hlen : s.length < c
  · have hdiv : s.length / c = 0 := Nat.div_eq_of_lt hlen
    have hmod : s.length % c = s.length := Nat.mod_eq_of_lt hlen
    refine ⟨s, [], ?_, hne, rfl⟩
    rw [read_backwards, hdiv, hmod]
    simp
  · push_neg at hlen
    have hdiv : 0 < s.length / c := Nat.div_pos hlen hc
    obtain ⟨m, hm⟩ : ∃ m, s.length / c = m + 1 := ⟨s.length / c - 1, by omega⟩
    have hlendrop : (s.drop (s.length - (0 + 1) * c)).length = c := by
      rw [List.length_drop]
      omega
    have hdne : s.drop (s.length - (0 + 1) * c) ≠ [] := by
      intro hcon
      rw [hcon] at hlendrop
      simp at hlendrop
      omega
    have htake : (s.drop (s.length - (0 + 1) * c)).take c = s.drop (s.length - (0 + 1) * c) := by
      apply List.take_of_length_le
      omega
    refine ⟨(s.drop (s.length - (0 + 1) * c)).take c,
      ((List.range m).map (fun i => (s.drop (s.length - (i + 1 + 1) * c)).take c))
        ++ [s.take (s.length % c)], ?_, ?_, ?_⟩
    · rw [read_backwards, hm, List.range_succ_eq_map]
      simp only [List.map_cons, List.cons_append, List.map_map]
      rfl
    · rw [htake]
      exact hdne
    · rw [htake]
      conv_rhs => rw [← List.take_append_drop (s.length - (0 + 1) * c) s]
      rw [List.getLast?_append_of_ne_nil _ hdne]

theorem getLast_reverse_decomp (l : List Char) (x : Char) (h : l.getLast? = some x) :
    l.reverse = x :: l.dropLast.reverse := by
  have hne : l ≠ [] := by
    rintro rfl
    simp at h
  have hx : l.getLast hne = x := by
    rw [List.getLast?_eq_getLast l hne] at h
    exact Option.some_inj.mp h
  have hdecomp : l.dropLast ++ [x] = l := by
    rw [← hx]
    exact List.dropLast_append_getLast hne
  conv_lhs => rw [← hdecomp]
  rw [List.reverse_append]
  simp

/-- On any file whose final byte is `]`, `get_last_json_object` reaches the
second loop with the reversed remainder of the file as its stream. -/
theorem get_last_json_object_eq (s : List Char) (hne : s ≠ []) (hlast : s.getLast? = some ']') :
    get_last_json_object s
      = (match loads (extractBackward initScan s.dropLast.reverse).reverse with
         | some v => .ok v
         | none => .error .decodeFail) := by
  obtain ⟨B, rest, hBr, hBne, hBlast⟩ := read_backwards_head s 1024 (by norm_num) hne
  have hflat := read_backwards_flatten s 1024 (by norm_num)
  rw [hBr] at hflat
  have hBrev : B.reverse = ']' :: B.dropLast.reverse :=
    getLast_reverse_decomp B ']' (hBlast.trans hlast)
  have hsrev : s.reverse = ']' :: s.dropLast.reverse := getLast_reverse_decomp s ']' hlast
  have hstream : B.dropLast.reverse ++ ((rest.map List.reverse).flatten) = s.dropLast.reverse := by
    have h2 : B.reverse ++ ((rest.map List.reverse).flatten) = s.reverse := by
      simpa using hflat
    rw [hBrev, hsrev] at h2
    simpa using h2
  rw [get_last_json_object, hBr]
  simp only [List.map_cons]
  rw [hBrev, findListEnd]
  have hsplit : splitAtBracket (']' :: B.dropLast.reverse)
      = some ([], ']' :: B.dropLast.reverse) := by
    rw [splitAtBracket]
    simp
  rw [hsplit]
  simp only [List.all_nil, if_true, List.drop_succ_cons, List.drop_zero]
  rw [hstream]

/-- `get_last_json_object` on any array file whose last element is an
object returns that object: the backward scan isolates exactly its
encoding and decodes it. -/
theorem get_last_archive (pre : List Char) (kvs : List (String × Json)) :
    get_last_json_object (pre ++ (encode (.obj kvs) ++ [']'])) = .ok (.obj kvs) := by
  have hne : pre ++ (encode (.obj kvs) ++ [']']) ≠ [] := by simp
  have hlast : (pre ++ (encode (.obj kvs) ++ [']'])).getLast? = some ']' := by
    rw [← List.append_assoc]
    exact List.getLast?_concat _
  rw [get_last_json_object_eq _ hne hlast]
  have hdrop : (pre ++ (encode (.obj kvs) ++ [']'])).dropLast = pre ++ encode (.obj kvs) := by
    rw [← List.append_assoc, List.dropLast_concat]
  rw [hdrop, List.reverse_append, extract_last_obj, List.reverse_reverse, loads_encode]

theorem loads_freshFile (rs : List Json) : loads (freshFile rs) = some (.arr rs) := by
  rw [freshFile_eq_encode, loads_encode]

theorem dropLast_append_getLast_eq (l : List Char) (x : Char) (h : l.getLast? = some x) :
    l.dropLast ++ [x] = l := by
  have hne : l ≠ [] := by
    rintro rfl
    simp at h
  have hx : l.getLast hne = x := by
    rw [List.getLast?_eq_getLast l hne] at h
    exact Option.some_inj.mp h
  rw [← hx]
  exact List.dropLast_append_getLast hne

theorem freshFile_shape (rs : List Json) (kvs : List (String × Json))
    (h : rs.getLast? = some (.obj kvs)) :
    ∃ pre, freshFile rs = pre ++ (encode (.obj kvs) ++ [']']) := by
  obtain ⟨init, hinit⟩ := List.getLast?_eq_some_iff.mp h
  subst hinit
  cases init with
  | nil =>
    refine ⟨['['], ?_⟩
    rw [freshFile, sessionBody_fresh]
    have h2 : ([] : List Json) ++ [Json.obj kvs] = [Json.obj kvs] := rfl
    rw [h2]
    have h3 : encodeItems [Json.obj kvs] = encode (.obj kvs) := rfl
    rw [h3]
    simp
  | cons i0 irest =>
    refine ⟨'[' :: (encodeItems (i0 :: irest) ++ [',']), ?_⟩
    rw [freshFile, sessionBody_fresh,
      encodeItems_append (i0 :: irest) [Json.obj kvs] (by simp) (by simp)]
    have h3 : encodeItems [Json.obj kvs] = encode (.obj kvs) := rfl
    rw [h3]
    simp

/-- `get_last_json_object` on a fresh-written archive whose last record is
an object returns that record. -/
theorem get_last_freshFile (rs : List Json) (kvs : List (String × Json))
    (h : rs.getLast? = some (.obj kvs)) :
    get_last_json_object (freshFile rs) = .ok (.obj kvs) := by
  obtain ⟨pre, hpre⟩ := freshFile_shape rs kvs h
  rw [hpre, get_last_archive]

/-! ### Claim theorems -/

/-- C2 (code_bug evidence): `gather_with_limit` with `return_exceptions`
does not report every task's outcome — successful results are never
appended to `results` (their values are discarded at `task.result()`), so
two successful coroutines under limit 1 yield an empty list instead of two
outcomes, contradicting the claim (and the function's own
`list[_T | Exception]` annotation and "operates like asyncio.gather()"
docstring).  Exceptions, by contrast, are collected. -/
theorem C2_gather_drops_successes :
    gather_with_limit (ε := Nat) (α := Nat) [.ok 1, .ok 2] 1 true = .ok []
    ∧ ([] : List Nat).length ≠ 2
    ∧ gather_with_limit (ε := Nat) (α := Nat) [.ok 1, .error 7, .ok 2, .error 9] 2 true
        = .ok [7, 9] :=
  ⟨rfl, by decide, rfl⟩

/-- C4: a fresh write session produces exactly the compact bracketed
comma-joined encoding of its records; a standard JSON decode of the file
returns the record sequence in order; the empty session yields exactly
`[]`. -/
theorem C4_fresh_round_trip (rs : List Json) (_hwf : wfItems rs = true) :
    loads (freshFile rs) = some (.arr rs)
    ∧ freshFile rs = '[' :: encodeItems rs ++ [']']
    ∧ freshFile ([] : List Json) = ['[', ']'] := by
  refine ⟨loads_freshFile rs, ?_, rfl⟩
  rw [freshFile, sessionBody_fresh]

/-- Witness for C4 at a concrete two-record archive. -/
theorem C4_fresh_round_trip_witness :
    wfItems [Json.obj [("a", Json.num 1)], Json.obj [("b", Json.str "x")]] = true
    ∧ (loads (freshFile [Json.obj [("a", Json.num 1)], Json.obj [("b", Json.str "x")]])
          = some (.arr [Json.obj [("a", Json.num 1)], Json.obj [("b", Json.str "x")]])
      ∧ freshFile [Json.obj [("a", Json.num 1)], Json.obj [("b", Json.str "x")]]
          = '[' :: encodeItems [Json.obj [("a", Json.num 1)], Json.obj [("b", Json.str "x")]]
              ++ [']']
      ∧ freshFile ([] : List Json) = ['[', ']']) :=
  ⟨by rfl, C4_fresh_round_trip _ (by rfl)⟩

/-- C3: writing `rs1` fresh and closing, then resuming (truncating the
final `]`, every resumed record preceded by a comma) and appending `rs2`,
yields a file that decodes to the array `rs1 ++ rs2`; the locator returns
the last record of `rs1` after the first close and the last record of
`rs2` after the final close. -/
theorem C3_resume_round_trip (rs1 rs2 : List Json) (k1 k2 : List (String × Json))
    (h1 : rs1.getLast? = some (.obj k1)) (h2 : rs2.getLast? = some (.obj k2))
    (_hwf : wfItems (rs1 ++ rs2) = true) :
    loads ((freshFile rs1).dropLast ++ resume_append rs2) = some (.arr (rs1 ++ rs2))
    ∧ get_last_json_object (freshFile rs1) = .ok (.obj k1)
    ∧ get_last_json_object ((freshFile rs1).dropLast ++ resume_append rs2) = .ok (.obj k2) := by
  have hne1 : rs1 ≠ [] := by
    rintro rfl
    simp at h1
  have hne2 : rs2 ≠ [] := by
    rintro rfl
    simp at h2
  rw [freshFile_append rs1 rs2 hne1 hne2]
  refine ⟨loads_freshFile _, get_last_freshFile rs1 k1 h1, ?_⟩
  apply get_last_freshFile
  rw [List.getLast?_append_of_ne_nil _ hne2]
  exact h2

/-- Witness for C3: one record fresh, one appended on resume. -/
theorem C3_resume_round_trip_witness :
    ([Json.obj [("id", Json.num 1)]].getLast? = some (Json.obj [("id", Json.num 1)])
      ∧ [Json.obj [("id", Json.num 2)]].getLast? = some (Json.obj [("id", Json.num 2)])
      ∧ wfItems ([Json.obj [("id", Json.num 1)]] ++ [Json.obj [("id", Json.num 2)]]) = true)
    ∧ (loads ((freshFile [Json.obj [("id", Json.num 1)]]).dropLast
            ++ resume_append [Json.obj [("id", Json.num 2)]])
          = some (.arr ([Json.obj [("id", Json.num 1)]] ++ [Json.obj [("id", Json.num 2)]]))
      ∧ get_last_json_object (freshFile [Json.obj [("id", Json.num 1)]])
          = .ok (Json.obj [("id", Json.num 1)])
      ∧ get_last_json_object ((freshFile [Json.obj [("id", Json.num 1)]]).dropLast
            ++ resume_append [Json.obj [("id", Json.num 2)]])
          = .ok (Json.obj [("id", Json.num 2)])) :=
  ⟨⟨by rfl, by rfl, by rfl⟩,
    C3_resume_round_trip _ _ _ _ (by rfl) (by rfl) (by rfl)⟩

/-- C8: on any archive whose last record is an object — in particular one
containing nested arrays/objects and a string field with an escaped quote
and an escaped backslash immediately preceding a quote — the locator
returns that record equal to its original value. -/
theorem C8_locator_nested_escaped (pre : List Char) (kvs : List (String × Json))
    (_hwf : wfB (.obj kvs) = true)
    (_hnested : ∃ p ∈ kvs, (∃ xs, p.2 = Json.arr xs) ∨ (∃ m, p.2 = Json.obj m))
    (_hesc : ∃ p ∈ kvs, ∃ s2 : String, p.2 = Json.str s2
        ∧ '"' ∈ s2.data ∧ List.IsInfix ['\\', '"'] s2.data) :
    get_last_json_object (pre ++ (encode (.obj kvs) ++ [']'])) = .ok (.obj kvs) :=
  get_last_archive pre kvs

/-- Witness for C8: a record with a nested array of objects and the string
field "a\\\"b" (escaped backslash immediately before an escaped quote),
stored as the second record of an archive. -/
theorem C8_locator_nested_escaped_witness :
    (wfB (.obj [("id", Json.num 5), ("n", Json.arr [Json.obj [("k", Json.num 2)]]),
        ("s", Json.str "a\\\"b")]) = true
      ∧ (∃ p ∈ [("id", Json.num 5), ("n", Json.arr [Json.obj [("k", Json.num 2)]]),
            ("s", Json.str "a\\\"b")], (∃ xs, p.2 = Json.arr xs) ∨ (∃ m, p.2 = Json.obj m))
      ∧ (∃ p ∈ [("id", Json.num 5), ("n", Json.arr [Json.obj [("k", Json.num 2)]]),
            ("s", Json.str "a\\\"b")], ∃ s2 : String, p.2 = Json.str s2
          ∧ '"' ∈ s2.data ∧ List.IsInfix ['\\', '"'] s2.data))
    ∧ get_last_json_object ((encode (.obj [("a", Json.num 1)]) ++ [','])
          ++ (encode (.obj [("id", Json.num 5),
               ("n", Json.arr [Json.obj [("k", Json.num 2)]]),
               ("s", Json.str "a\\\"b")]) ++ [']']))
        = .ok (.obj [("id", Json.num 5), ("n", Json.arr [Json.obj [("k", Json.num 2)]]),
            ("s", Json.str "a\\\"b")]) := by
  refine ⟨⟨by rfl, ?_, ?_⟩, ?_⟩
  · exact ⟨("n", Json.arr [Json.obj [("k", Json.num 2)]]), by simp, Or.inl ⟨_, rfl⟩⟩
  · exact ⟨("s", Json.str "a\\\"b"), by simp, "a\\\"b", rfl, by decide, ⟨['a'], ['b'], rfl⟩⟩
  · exact C8_locator_nested_escaped (encode (.obj [("a", Json.num 1)]) ++ [',']) _
      (by rfl)
      ⟨("n", Json.arr [Json.obj [("k", Json.num 2)]]), by simp, Or.inl ⟨_, rfl⟩⟩
      ⟨("s", Json.str "a\\\"b"), by simp, "a\\\"b", rfl, by decide, ⟨['a'], ['b'], rfl⟩⟩

/-- C7 (counterexample): on the archive `[[1]]`, whose last top-level
element is the complete JSON value `[1]`, the accumulated text is just
`]` — the loop exits after the very first character because the exit
condition consults only `curly_nests`, which is still 0 — and the locator
fails decoding it, contradicting the claim that the accumulated text is
exactly the element. -/
theorem C7_counterexample :
    extractBackward initScan ((freshFile [Json.arr [Json.num 1]]).dropLast.reverse) = [']']
    ∧ get_last_json_object (freshFile [Json.arr [Json.num 1]]) = .error .decodeFail :=
  ⟨rfl, rfl⟩

/-- C7 (amended): the scanner tracks both bracket depths, but the stop
condition consults only the curly depth, which moves into the negatives
and stops on returning to zero; consequently exact accumulation holds for
archives whose last top-level element is an object: the accumulated text
is exactly that object's encoding (reversed). -/
theorem C7_amended (pre : List Char) (kvs : List (String × Json)) :
    extractBackward initScan ((pre ++ (encode (.obj kvs) ++ [']'])).dropLast.reverse)
      = (encode (.obj kvs)).reverse := by
  have hdrop : (pre ++ (encode (.obj kvs) ++ [']'])).dropLast = pre ++ encode (.obj kvs) := by
    rw [← List.append_assoc, List.dropLast_concat]
  rw [hdrop, List.reverse_append, extract_last_obj]

/-- C1 (counterexample): a session that resumed an existing non-empty
archive (the locator succeeds and recovers id 7) and then hits a
`discord.HTTPException` mid-write ends with the file unlinked — not left
in place as the claim states. -/
theorem C1_counterexample :
    get_last_json_object (freshFile [Json.obj [("id", Json.num 7)]])
        = .ok (Json.obj [("id", Json.num 7)])
    ∧ scrape_channel_messages true (freshFile [Json.obj [("id", Json.num 7)]]) (.httpErr [])
        = ⟨none, false⟩ :=
  ⟨rfl, rfl⟩

/-- C1 (amended): for every resumed session, a fetch error
(`discord.HTTPException`) deletes the on-disk file via
`unlink(missing_ok=True)`, while a write error (any other exception)
propagates and leaves the partial file in place. -/
theorem C1_amended (content : List Char) (kvs : List (String × Json)) (n : Int)
    (written : List Json) (extra : List Char)
    (hok : get_last_json_object content = .ok (.obj kvs))
    (hid : kvs.lookup "id" = some (.num n)) (hn : n ≠ 0) :
    (scrape_channel_messages true content (.httpErr written)).file = none
    ∧ (scrape_channel_messages true content (.writeErr written extra)).file
        = some (content.dropLast ++ sessionBody true true written ++ extra) := by
  have htr : truthy (.num n) = true := by simp [truthy, hn]
  constructor
  · rw [scrape_channel_messages]
    simp only [if_pos rfl, hok, hid, htr, if_true, pyInt]
  · rw [scrape_channel_messages]
    simp only [if_pos rfl, hok, hid, htr, if_true, pyInt]
    simp [hn]

/-- Witness for C1 (amended) on a one-record archive with id 7. -/
theorem C1_amended_witness :
    (get_last_json_object (freshFile [Json.obj [("id", Json.num 7)]])
        = .ok (Json.obj [("id", Json.num 7)])
      ∧ [("id", Json.num 7)].lookup "id" = some (Json.num 7)
      ∧ (7 : Int) ≠ 0)
    ∧ ((scrape_channel_messages true (freshFile [Json.obj [("id", Json.num 7)]])
          (.httpErr [])).file = none
      ∧ (scrape_channel_messages true (freshFile [Json.obj [("id", Json.num 7)]])
          (.writeErr [] [','])).file
        = some ((freshFile [Json.obj [("id", Json.num 7)]]).dropLast
            ++ sessionBody true true [] ++ [','])) :=
  ⟨⟨by rfl, by rfl, by decide⟩,
    C1_amended _ _ 7 [] [','] (by rfl) (by rfl) (by decide)⟩

/-- C6 (counterexample): on a file containing exactly `[]`, the locator
does not fail with the empty-archive error ("No list was found in the
file."); it extracts the single character `[` and fails decoding it — a
`json.loads` decode failure, the spec's malformed category. -/
theorem C6_counterexample :
    freshFile ([] : List Json) = ['[', ']']
    ∧ get_last_json_object (freshFile ([] : List Json)) = .error .decodeFail
    ∧ get_last_json_object (freshFile ([] : List Json)) ≠ .error .noList :=
  ⟨rfl, rfl, by
    simp only [show get_last_json_object (freshFile ([] : List Json)) = .error .decodeFail
      from rfl]
    simp⟩

/-- C6 (amended): on `[]` the locator fails (with a decode failure rather
than a distinct empty-archive error); the export catches any locator
failure, proceeds in fresh mode, and the resulting file holds exactly the
newly fetched records — no data is lost, the prior archive being empty. -/
theorem C6_amended (msgs : List Json) (_hwf : wfItems msgs = true) :
    scrape_channel_messages true ['[', ']'] (.ok msgs) = ⟨some (freshFile msgs), false⟩
    ∧ loads (freshFile msgs) = some (.arr msgs) := by
  refine ⟨?_, loads_freshFile msgs⟩
  rw [scrape_channel_messages]
  have hloc : get_last_json_object ['[', ']'] = .error .decodeFail := rfl
  simp only [if_pos rfl, hloc, if_true]
  rfl

/-- Witness for C6 (amended) with one fetched record. -/
theorem C6_amended_witness :
    wfItems [Json.obj [("id", Json.num 3)]] = true
    ∧ (scrape_channel_messages true ['[', ']'] (.ok [Json.obj [("id", Json.num 3)]])
        = ⟨some (freshFile [Json.obj [("id", Json.num 3)]]), false⟩
      ∧ loads (freshFile [Json.obj [("id", Json.num 3)]])
        = some (.arr [Json.obj [("id", Json.num 3)]])) :=
  ⟨by rfl, C6_amended _ (by rfl)⟩

/-- C10: if the resume succeeds (locator returns an object with a nonzero
integer id), the fetch yields no new records and no error occurs, the
final file equals the original byte for byte: the truncated `]` is written
back and nothing else. -/
theorem C10_resume_zero_new (content : List Char) (kvs : List (String × Json)) (n : Int)
    (hok : get_last_json_object content = .ok (.obj kvs))
    (hid : kvs.lookup "id" = some (.num n)) (hn : n ≠ 0)
    (hlast : content.getLast? = some ']') :
    scrape_channel_messages true content (.ok []) = ⟨some content, false⟩ := by
  have htr : truthy (.num n) = true := by simp [truthy, hn]
  rw [scrape_channel_messages]
  simp only [if_pos rfl, hok, hid, htr, if_true, pyInt]
  have hbody : ∀ b : Bool, sessionBody b true ([] : List Json) = [] := fun _ => rfl
  simp only [hbody, List.append_nil]
  rw [dropLast_append_getLast_eq content ']' hlast]

/-- Witness for C10 on a one-record archive with id 7. -/
theorem C10_resume_zero_new_witness :
    (get_last_json_object (freshFile [Json.obj [("id", Json.num 7)]])
        = .ok (Json.obj [("id", Json.num 7)])
      ∧ [("id", Json.num 7)].lookup "id" = some (Json.num 7)
      ∧ (7 : Int) ≠ 0
      ∧ (freshFile [Json.obj [("id", Json.num 7)]]).getLast? = some ']')
    ∧ scrape_channel_messages true (freshFile [Json.obj [("id", Json.num 7)]]) (.ok [])
        = ⟨some (freshFile [Json.obj [("id", Json.num 7)]]), false⟩ :=
  ⟨⟨by rfl, by rfl, by decide, by rfl⟩,
    C10_resume_zero_new _ _ 7 (by rfl) (by rfl) (by decide) (by rfl)⟩

theorem fetch_short_page {μ : Type} (idOf : μ → Int) (after : Option Int)
    (p : List μ) (rest : List (List μ)) (h : p.length < 100) :
    fetch_channel_history idOf none after (p :: rest) = (p.reverse, 1) := by
  rw [fetch_channel_history.eq_def]
  simp only
  rw [if_neg (by norm_num)]
  have htake : p.take ((100 : Int)).toNat = p := List.take_of_length_le (by omega)
  simp only [htake]
  rw [if_pos h]

theorem fetch_full_page {μ : Type} (idOf : μ → Int) (after : Option Int)
    (p : List μ) (rest : List (List μ)) (h : p.length = 100) :
    ∃ after2, fetch_channel_history idOf none after (p :: rest)
      = (p.reverse ++ (fetch_channel_history idOf none after2 rest).1,
         1 + (fetch_channel_history idOf none after2 rest).2) := by
  rw [fetch_channel_history.eq_def]
  simp only
  rw [if_neg (by norm_num)]
  have htake : p.take ((100 : Int)).toNat = p := List.take_of_length_le (by omega)
  simp only [htake]
  rw [if_neg (by omega)]
  exact ⟨_, rfl⟩

theorem fetch_budget_page {μ : Type} (idOf : μ → Int) (after : Option Int)
    (q : List μ) (pages2 : List (List μ)) (hq : 50 ≤ q.length) :
    fetch_channel_history idOf (some 50) after (q :: pages2) = ((q.take 50).reverse, 1) := by
  rw [fetch_channel_history.eq_def]
  simp only
  have hmin : min (50 : Int) 100 = 50 := by norm_num
  rw [hmin, if_neg (by norm_num)]
  have htoNat : ((50 : Int)).toNat = 50 := rfl
  simp only [htoNat]
  rw [if_pos (by rw [List.length_take]; omega)]

/-- C9: `fetch_channel_history` with no message limit over pages of sizes
100, 100, 37 yields exactly 237 records in exactly 3 page requests; any
page shorter than the 100-record ceiling ends the sequence after its
records are yielded with no further request; with a remaining budget of
50 the request is clamped to 50 and exactly 50 records are yielded in a
single request even though more pages exist. -/
theorem C9_pagination {μ : Type} (idOf : μ → Int)
    (p1 p2 p3 : List μ) (rest : List (List μ))
    (h1 : p1.length = 100) (h2 : p2.length = 100) (h3 : p3.length = 37)
    (q : List μ) (pages2 : List (List μ)) (hq : 50 ≤ q.length) :
    ((fetch_channel_history idOf none none (p1 :: p2 :: p3 :: rest)).1.length = 237
      ∧ (fetch_channel_history idOf none none (p1 :: p2 :: p3 :: rest)).2 = 3)
    ∧ (∀ (p : List μ) (rest2 : List (List μ)), p.length < 100 →
        fetch_channel_history idOf none none (p :: rest2) = (p.reverse, 1))
    ∧ ((fetch_channel_history idOf (some 50) none (q :: pages2)).1.length = 50
      ∧ (fetch_channel_history idOf (some 50) none (q :: pages2)).2 = 1) := by
  refine ⟨?_, fun p rest2 hp => fetch_short_page idOf none p rest2 hp, ?_⟩
  · obtain ⟨a2, ha2⟩ := fetch_full_page idOf none p1 (p2 :: p3 :: rest) h1
    obtain ⟨a3, ha3⟩ := fetch_full_page idOf a2 p2 (p3 :: rest) h2
    have hshort := fetch_short_page idOf a3 p3 rest (by omega)
    rw [ha2, ha3, hshort]
    constructor
    · simp [h1, h2, h3]
    · simp
  · rw [fetch_budget_page idOf none q pages2 hq]
    constructor
    · simp [List.length_take]
      omega
    · rfl

theorem splitAtBracket_no_bracket (l : List Char) (h : ']' ∉ l) : splitAtBracket l = none := by
  induction l with
  | nil => rfl
  | cons c r ih =>
    rw [splitAtBracket]
    rw [if_neg (by intro hc; exact h (hc ▸ List.mem_cons_self c r))]
    rw [ih (fun hm => h (List.mem_cons_of_mem c hm))]
    rfl

theorem splitAtBracket_found (a b : List Char) (h : ']' ∉ a) :
    splitAtBracket (a ++ ']' :: b) = some (a, ']' :: b) := by
  induction a with
  | nil =>
    rw [List.nil_append, splitAtBracket]
    simp
  | cons c r ih =>
    rw [List.cons_append, splitAtBracket]
    rw [if_neg (by intro hc; exact h (hc ▸ List.mem_cons_self c r))]
    rw [ih (fun hm => h (List.mem_cons_of_mem c hm))]
    rfl

/-- C5 (counterexample): a file whose trailing garbage spans a whole
1024-byte backward chunk with no `]` in it is NOT rejected: phase one
`continue`s past the garbage chunk without checking it (since `chars` is
still empty the `chars + chunk[:found_end]` guard never sees it), finds
the `]` of `[.obj [a,1]]` in the next chunk, and the call succeeds with
the last record instead of failing with the trailing-characters error. -/
theorem C5_counterexample :
    get_last_json_object (freshFile [Json.obj [("a", Json.num 1)]] ++ List.replicate 1024 'g')
      = .ok (Json.obj [("a", Json.num 1)]) := by
  have hA : (freshFile [Json.obj [("a", Json.num 1)]]).length = 9 := rfl
  have hn : (freshFile [Json.obj [("a", Json.num 1)]] ++ List.replicate 1024 'g').length
      = 1033 := by
    rw [List.length_append, hA, List.length_replicate]
  have hrb : read_backwards (freshFile [Json.obj [("a", Json.num 1)]]
        ++ List.replicate 1024 'g') 1024
      = [List.replicate 1024 'g', freshFile [Json.obj [("a", Json.num 1)]]] := by
    rw [read_backwards, hn]
    have hdiv : (1033 : Nat) / 1024 = 1 := by norm_num
    have hmod : (1033 : Nat) % 1024 = 9 := by norm_num
    rw [hdiv, hmod]
    have hr1 : List.range 1 = [0] := rfl
    rw [hr1]
    simp only [List.map_cons, List.map_nil]
    have hsub : 1033 - (0 + 1) * 1024 = 9 := by norm_num
    rw [hsub]
    have hdropped : (freshFile [Json.obj [("a", Json.num 1)]]
        ++ List.replicate 1024 'g').drop 9 = List.replicate 1024 'g' := by
      rw [← hA, List.drop_left]
    have htaken : (freshFile [Json.obj [("a", Json.num 1)]]
        ++ List.replicate 1024 'g').take 9 = freshFile [Json.obj [("a", Json.num 1)]] := by
      rw [← hA, List.take_left]
    rw [hdropped, htaken]
    rw [List.take_of_length_le (by rw [List.length_replicate])]
    rfl
  rw [get_last_json_object, hrb]
  simp only [List.map_cons, List.map_nil, List.reverse_replicate]
  rw [findListEnd, splitAtBracket_no_bracket _ (by
    intro hm
    have := List.eq_of_mem_replicate hm
    simp at this)]
  rfl

theorem read_backwards_head_drop (s : List Char) (c : Nat) (hc : 0 < c) (_hne : s ≠ []) :
    ∃ k rest, read_backwards s c = s.drop k :: rest ∧ (k = 0 ∨ k + c = s.length) := by
  by_cases hlen : s.length < c
  · have hdiv : s.length / c = 0 := Nat.div_eq_of_lt hlen
    have hmod : s.length % c = s.length := Nat.mod_eq_of_lt hlen
    refine ⟨0, [], ?_, Or.inl rfl⟩
    rw [read_backwards, hdiv, hmod]
    simp
  · push_neg at hlen
    have hdiv : 0 < s.length / c := Nat.div_pos hlen hc
    obtain ⟨m, hm⟩ : ∃ m, s.length / c = m + 1 := ⟨s.length / c - 1, by omega⟩
    have htake : (s.drop (s.length - (0 + 1) * c)).take c = s.drop (s.length - (0 + 1) * c) := by
      apply List.take_of_length_le
      rw [List.length_drop]
      omega
    refine ⟨s.length - c, ((List.range m).map
        (fun i => (s.drop (s.length - (i + 1 + 1) * c)).take c))
      ++ [s.take (s.length % c)], ?_, Or.inr (by omega)⟩
    rw [read_backwards, hm, List.range_succ_eq_map]
    simp only [List.map_cons, List.cons_append, List.map_map]
    rw [htake]
    have harg : s.length - (0 + 1) * c = s.length - c := by omega
    rw [harg]
    rfl

/-- C5 (amended): trailing-garbage detection holds whenever the final
`]` and all trailing bytes lie within the same backward chunk — the
last-read chunk, i.e. fewer than 1024 bytes follow the final `]` — and in
that case, for a file of any length, any non-whitespace character after
the `]` makes `get_last_json_object` fail with the trailing-characters
error. -/
theorem C5_amended (pre g : List Char)
    (hchunk : g.length < 1024)
    (hg : ']' ∉ g) (hbad : g.all isWs = false) :
    get_last_json_object (pre ++ ']' :: g) = .error .trailing := by
  have hne : (pre ++ ']' :: g) ≠ [] := by simp
  obtain ⟨k, rest, hrb, hk0⟩ :=
    read_backwards_head_drop (pre ++ ']' :: g) 1024 (by norm_num) hne
  have hlen : (pre ++ ']' :: g).length = pre.length + (g.length + 1) := by
    simp
  have hkpre : k ≤ pre.length := by
    rcases hk0 with h | h
    · omega
    · omega
  have hdropB : (pre ++ ']' :: g).drop k = pre.drop k ++ ']' :: g := by
    rw [List.drop_append_eq_append_drop]
    have hz : k - pre.length = 0 := by omega
    rw [hz, List.drop_zero]
  rw [get_last_json_object, hrb]
  simp only [List.map_cons]
  have hrev : ((pre ++ ']' :: g).drop k).reverse
      = g.reverse ++ ']' :: (pre.drop k).reverse := by
    rw [hdropB, List.reverse_append, List.reverse_cons]
    simp
  rw [hrev, findListEnd, splitAtBracket_found g.reverse (pre.drop k).reverse
    (by rw [List.mem_reverse]; exact hg)]
  have hall : (g.reverse).all isWs = false := by
    rw [List.all_reverse]
    exact hbad
  simp [hall]

/-- C9 witness: the pagination theorem applied at concrete pages of unit
records (sizes 100, 100, 37 and a 50-budget run over a 50-record page). -/
theorem C9_pagination_witness :
    ((List.replicate 100 ()).length = 100 ∧ (List.replicate 100 ()).length = 100
      ∧ (List.replicate 37 ()).length = 37 ∧ 50 ≤ (List.replicate 50 ()).length)
    ∧ (((fetch_channel_history (fun _ => (1 : Int)) none none
          (List.replicate 100 () :: List.replicate 100 () :: List.replicate 37 () :: [])).1.length
            = 237
        ∧ (fetch_channel_history (fun _ => (1 : Int)) none none
          (List.replicate 100 () :: List.replicate 100 () :: List.replicate 37 () :: [])).2 = 3)
      ∧ (∀ (p : List Unit) (rest2 : List (List Unit)), p.length < 100 →
          fetch_channel_history (fun _ => (1 : Int)) none none (p :: rest2) = (p.reverse, 1))
      ∧ ((fetch_channel_history (fun _ => (1 : Int)) (some 50) none
            (List.replicate 50 () :: [])).1.length = 50
        ∧ (fetch_channel_history (fun _ => (1 : Int)) (some 50) none
            (List.replicate 50 () :: [])).2 = 1)) :=
  ⟨⟨by simp, by simp, by simp, by simp⟩,
    C9_pagination (fun _ => (1 : Int)) (List.replicate 100 ()) (List.replicate 100 ())
      (List.replicate 37 ()) [] (by simp) (by simp) (by simp)
      (List.replicate 50 ()) [] (by simp)⟩

/-- C5 witness: the amended theorem applied to a 3-byte file with a
single non-whitespace character after the closing bracket. -/
theorem C5_amended_witness :
    ((['x'] : List Char).length < 1024 ∧ ']' ∉ ['x'] ∧ ['x'].all isWs = false)
    ∧ get_last_json_object (['['] ++ ']' :: ['x']) = .error .trailing :=
  ⟨⟨by decide, by decide, by decide⟩,
    C5_amended ['['] ['x'] (by decide) (by decide) (by decide)⟩
